import Mathlib

/-!
Verification of the gear-hover segmentation core (src/app.js).

The source is shallowly embedded: pixel buffers are byte functions
`Nat → Nat` (index `i` holds the `i`-th byte of the RGBA stream, exactly as
`ImageData.data`), the `Uint32Array` label map is a total function
`Nat → Nat` that is `0` away from every written index, JS `Map`/`Set`
objects are association lists / duplicate-free lists with the same
insertion-order semantics, and JS floating-point arithmetic on the small
values involved is embedded as exact rational arithmetic (`ℚ`), which agrees
with IEEE doubles on every comparison performed by this program.
-/

namespace GearHover

/-- Foreground Classifier, from `isForeground` in src/app.js:
near-white (all channels above 245) is background, otherwise the pixel is
foreground iff its mean brightness `(r+g+b)/3` is strictly below 245.
The source divides exactly representable small integers as IEEE doubles;
comparing that exact real quotient with the integer 245 agrees with
comparing the floor quotient used here (`⌊s/3⌋ < 245 ↔ s/3 < 245`), which
`isForeground_spec` proves in the rational form. -/
def isForeground (r g b : Nat) : Bool :=
  if 245 < r ∧ 245 < g ∧ 245 < b then false
  else decide ((r + g + b) / 3 < 245)

/-- The floor-division test of `isForeground` coincides with the exact
rational (hence IEEE-double) brightness test of the source. -/
theorem mean_lt_iff (s : Nat) : ((s : ℚ) / 3 < 245) ↔ s / 3 < 245 := by
  rw [div_lt_iff (by norm_num : (0 : ℚ) < 3)]
  rw [Nat.div_lt_iff_lt_mul (by norm_num : 0 < 3)]
  constructor
  · intro h
    exact_mod_cast h
  · intro h
    exact_mod_cast h

/-- Read the RGB channels of pixel `p` from a byte buffer and classify,
as done inline by `buildComponentMap` (`const i = p * 4; ...`). -/
def fgAt (data : Nat → Nat) (p : Nat) : Bool :=
  isForeground (data (p * 4)) (data (p * 4 + 1)) (data (p * 4 + 2))

/-- Claim C8: for channel values in 0..255, `isForeground` returns `false`
when all three channels strictly exceed 245, and otherwise returns `true`
iff the mean brightness `(r+g+b)/3` is strictly below 245; consequently a
mean below 245 with not-all-extreme channels is foreground, and a mean at
or above 245 is background. -/
theorem isForeground_spec (r g b : Nat) (hr : r ≤ 255) (hg : g ≤ 255) (hb : b ≤ 255) :
    ((245 < r ∧ 245 < g ∧ 245 < b) → isForeground r g b = false) ∧
    (¬(245 < r ∧ 245 < g ∧ 245 < b) →
      (isForeground r g b = true ↔ (((r : ℚ) + g + b) / 3) < 245)) ∧
    ((((r : ℚ) + g + b) / 3) < 245 → ¬(245 < r ∧ 245 < g ∧ 245 < b) →
      isForeground r g b = true) ∧
    (245 ≤ (((r : ℚ) + g + b) / 3) → isForeground r g b = false) := by
  have hcast : ((r : ℚ) + g + b) = ((r + g + b : Nat) : ℚ) := by push_cast; ring
  refine ⟨?_, ?_, ?_, ?_⟩
  · intro h
    simp [isForeground, h]
  · intro h
    rw [hcast, mean_lt_iff]
    simp [isForeground, h]
  · intro hm h
    rw [hcast, mean_lt_iff] at hm
    simp [isForeground, h, hm]
  · intro hm
    rw [hcast] at hm
    have hm' : ¬ ((r + g + b : Nat) : ℚ) / 3 < 245 := not_lt.mpr hm
    rw [mean_lt_iff] at hm'
    by_cases h : 245 < r ∧ 245 < g ∧ 245 < b
    · simp [isForeground, h]
    · simp [isForeground, h]
      exact Nat.le_of_not_lt hm'

/-- Concrete instance of `isForeground_spec` (channels of a mid grey pixel). -/
theorem isForeground_spec_witness :
    200 ≤ 255 ∧
    (((245 < 200 ∧ 245 < 200 ∧ 245 < 200) → isForeground 200 200 200 = false) ∧
    (¬(245 < 200 ∧ 245 < 200 ∧ 245 < 200) →
      (isForeground 200 200 200 = true ↔ (((200 : ℚ) + 200 + 200) / 3) < 245)) ∧
    ((((200 : ℚ) + 200 + 200) / 3) < 245 → ¬(245 < 200 ∧ 245 < 200 ∧ 245 < 200) →
      isForeground 200 200 200 = true) ∧
    (245 ≤ (((200 : ℚ) + 200 + 200) / 3) → isForeground 200 200 200 = false)) :=
  ⟨by decide, isForeground_spec 200 200 200 (by decide) (by decide) (by decide)⟩

/-! ## Label Map Builder (`buildComponentMap` in src/app.js)

The iterative flood fill is embedded with an explicit fuel parameter; the
fuel `W * H + 1` supplied by the outer scan is proved sufficient below
(each loop iteration pops one stack entry and every push turns one
zero-labelled in-range pixel nonzero, so the iteration count is bounded by
the zero count plus the stack height). -/

/-- The JS neighbour list `[[qx-1,qy],[qx+1,qy],[qx,qy-1],[qx,qy+1]]` of the
popped pixel `q`, with `qx = q % W`, `qy = (q / W) | 0`, in signed
coordinates exactly as the source builds them. -/
def neighborList (W : Nat) (q : Nat) : List (Int × Int) :=
  let qx : Int := (q % W : Nat)
  let qy : Int := (q / W : Nat)
  [(qx - 1, qy), (qx + 1, qy), (qx, qy - 1), (qx, qy + 1)]

/-- The inner `for (const [nx, ny] of nbs)` loop of the flood fill: skip
out-of-range neighbours, skip already-labelled ones, write 0 to background
neighbours, and label-and-push foreground ones. The stack is a list whose
head is the top (`push` = cons, `pop` = head), matching the LIFO
`stack.push`/`stack.pop` pair of the source. -/
def processNbs (data : Nat → Nat) (W H cur : Nat) :
    List (Int × Int) → ((Nat → Nat) × List Nat) → ((Nat → Nat) × List Nat)
  | [], st => st
  | (nx, ny) :: rest, (labels, stack) =>
      if nx < 0 ∨ (W : Int) ≤ nx ∨ ny < 0 ∨ (H : Int) ≤ ny then
        processNbs data W H cur rest (labels, stack)
      else
        let np := ny.toNat * W + nx.toNat
        if labels np ≠ 0 then
          processNbs data W H cur rest (labels, stack)
        else if fgAt data np = false then
          processNbs data W H cur rest ((fun r => if r = np then 0 else labels r), stack)
        else
          processNbs data W H cur rest
            ((fun r => if r = np then cur else labels r), np :: stack)

/-- The `while (stack.length)` loop of `buildComponentMap`. -/
def floodLoop (data : Nat → Nat) (W H cur : Nat) :
    Nat → (Nat → Nat) → List Nat → (Nat → Nat)
  | 0, labels, _ => labels
  | _ + 1, labels, [] => labels
  | fuel + 1, labels, q :: rest =>
      let st := processNbs data W H cur (neighborList W q) (labels, rest)
      floodLoop data W H cur fuel st.1 st.2

/-- One row `y` of the outer scan: the pixels `(0,y) .. (W-1,y)` in order. -/
def rowOf (W y : Nat) : List (Nat × Nat) :=
  (List.range W).map fun x => (x, y)

/-- The row-major traversal order of the outer double loop
(`for y ... for x ...`): all rows `0 .. H-1` concatenated. -/
def rowMajor (W : Nat) : Nat → List (Nat × Nat)
  | 0 => []
  | h + 1 => rowMajor W h ++ rowOf W h

/-- The body of the outer double loop of `buildComponentMap`: skip
already-labelled pixels, mark background pixels 0, and otherwise allocate
the next id and flood-fill from the pixel. -/
def scanStep (data : Nat → Nat) (W H : Nat) :
    List (Nat × Nat) → (Nat → Nat) → Nat → ((Nat → Nat) × Nat)
  | [], labels, cur => (labels, cur)
  | (x, y) :: rest, labels, cur =>
      let p := y * W + x
      if labels p ≠ 0 then
        scanStep data W H rest labels cur
      else if fgAt data p = false then
        scanStep data W H rest (fun r => if r = p then 0 else labels r) cur
      else
        let cur' := cur + 1
        let labels' := floodLoop data W H cur' (W * H + 1)
          (fun r => if r = p then cur' else labels r) [p]
        scanStep data W H rest labels' cur'

/-- Label Map Builder, from `buildComponentMap` in src/app.js: returns the
label array (`compIdAt`) together with the final component count
(`compCount = currentId`). -/
def buildComponentMap (data : Nat → Nat) (W H : Nat) : (Nat → Nat) × Nat :=
  scanStep data W H (rowMajor W H) (fun _ => 0) 0

/-! ## Grid adjacency and connectivity -/

/-- 4-neighbour adjacency of flat row-major positions: one step left/right
inside the same row, or one step up/down. -/
def Adj (W : Nat) (p q : Nat) : Prop :=
  (q = p + 1 ∧ p / W = q / W) ∨ (p = q + 1 ∧ p / W = q / W) ∨
  (q = p + W) ∨ (p = q + W)

/-- One path step inside the region `S`. -/
def Step (W : Nat) (S : Nat → Prop) (a b : Nat) : Prop :=
  Adj W a b ∧ S b

/-- `p` and `q` are joined by a 4-connected path every position of which
lies in `S`. -/
def ConnIn (W : Nat) (S : Nat → Prop) (p q : Nat) : Prop :=
  S p ∧ Relation.ReflTransGen (Step W S) p q

theorem Adj.symm {W p q : Nat} (h : Adj W p q) : Adj W q p := by
  rcases h with h | h | h | h
  · exact Or.inr (Or.inl ⟨h.1, h.2.symm⟩)
  · exact Or.inl ⟨h.1, h.2.symm⟩
  · exact Or.inr (Or.inr (Or.inr h))
  · exact Or.inr (Or.inr (Or.inl h))

theorem connIn_mono {W : Nat} {S S' : Nat → Prop} (hS : ∀ r, S r → S' r)
    {p q : Nat} (h : ConnIn W S p q) : ConnIn W S' p q :=
  ⟨hS p h.1, h.2.mono fun _ _ hab => ⟨hab.1, hS _ hab.2⟩⟩

theorem connIn_last {W : Nat} {S : Nat → Prop} {p q : Nat}
    (h : Relation.ReflTransGen (Step W S) p q) (hp : S p) : S q := by
  induction h with
  | refl => exact hp
  | tail _ hbc _ => exact hbc.2

theorem connIn_symm {W : Nat} {S : Nat → Prop} {p q : Nat}
    (h : ConnIn W S p q) : ConnIn W S q p := by
  obtain ⟨hp, hpath⟩ := h
  refine ⟨connIn_last hpath hp, ?_⟩
  induction hpath with
  | refl => exact Relation.ReflTransGen.refl
  | tail hpb hbc ih =>
      exact Relation.ReflTransGen.head ⟨hbc.1.symm, connIn_last hpb hp⟩ ih

theorem connIn_trans {W : Nat} {S : Nat → Prop} {p q r : Nat}
    (h₁ : ConnIn W S p q) (h₂ : ConnIn W S q r) : ConnIn W S p r :=
  ⟨h₁.1, h₁.2.trans h₂.2⟩

/-! ## Row-major position arithmetic -/

theorem pos_lt {W H x y : Nat} (hx : x < W) (hy : y < H) : y * W + x < W * H := by
  calc y * W + x < y * W + W := by omega
    _ = (y + 1) * W := by ring
    _ ≤ H * W := Nat.mul_le_mul_right W hy
    _ = W * H := Nat.mul_comm _ _

theorem rowcol_div {W x y : Nat} (hx : x < W) : (y * W + x) / W = y := by
  have W0 : 0 < W := lt_of_le_of_lt (Nat.zero_le x) hx
  rw [add_comm, Nat.add_mul_div_right _ _ W0, Nat.div_eq_of_lt hx, zero_add]

theorem rowcol_mod {W x y : Nat} (hx : x < W) : (y * W + x) % W = x := by
  rw [add_comm, Nat.add_mul_mod_self_right, Nat.mod_eq_of_lt hx]

theorem grid_pos {W H q : Nat} (hq : q < W * H) :
    q % W < W ∧ q / W < H ∧ q / W * W + q % W = q := by
  have W0 : 0 < W := by
    rcases Nat.eq_zero_or_pos W with h | h
    · subst h; simp at hq
    · exact h
  refine ⟨Nat.mod_lt q W0, ?_, ?_⟩
  · rw [Nat.div_lt_iff_lt_mul W0, mul_comm]; exact hq
  · rw [mul_comm, Nat.div_add_mod]

/-! ## Neighbour list vs adjacency -/

theorem nb_adj {W H q : Nat} (hq : q < W * H) {nx ny : Int}
    (hmem : (nx, ny) ∈ neighborList W q)
    (hg : ¬(nx < 0 ∨ (W : Int) ≤ nx ∨ ny < 0 ∨ (H : Int) ≤ ny)) :
    Adj W q (ny.toNat * W + nx.toNat) ∧ ny.toNat * W + nx.toNat < W * H := by
  push_neg at hg
  obtain ⟨hnx0, hnxW, hny0, hnyH⟩ := hg
  obtain ⟨hm, hd, hdm⟩ := grid_pos hq
  simp only [neighborList, List.mem_cons, List.mem_singleton, Prod.mk.injEq,
    List.not_mem_nil, or_false] at hmem
  rcases hmem with ⟨hx, hy⟩ | ⟨hx, hy⟩ | ⟨hx, hy⟩ | ⟨hx, hy⟩ <;>
      subst hx <;> subst hy <;>
      set m := q % W with hm_def <;> set d := q / W with hd_def <;>
      clear_value m d
  · -- left neighbour (qx - 1, qy)
    have h1m : 1 ≤ m := by omega
    have hxv : ((m : Int) - 1).toNat = m - 1 := by omega
    have hyv : ((d : Int)).toNat = d := by omega
    rw [hxv, hyv]
    have hlt : m - 1 < W := by omega
    have heq : d * W + (m - 1) + 1 = q := by omega
    constructor
    · refine Or.inr (Or.inl ⟨by omega, ?_⟩)
      rw [rowcol_div hlt, ← hd_def]
    · omega
  · -- right neighbour (qx + 1, qy)
    have hxv : ((m : Int) + 1).toNat = m + 1 := by omega
    have hyv : ((d : Int)).toNat = d := by omega
    rw [hxv, hyv]
    have hlt : m + 1 < W := by omega
    have heq : d * W + (m + 1) = q + 1 := by omega
    constructor
    · refine Or.inl ⟨by omega, ?_⟩
      rw [rowcol_div hlt, ← hd_def]
    · exact pos_lt hlt hd
  · -- up neighbour (qx, qy - 1)
    have h1d : 1 ≤ d := by omega
    have hxv : ((m : Int)).toNat = m := by omega
    have hyv : ((d : Int) - 1).toNat = d - 1 := by omega
    rw [hxv, hyv]
    have key : (d - 1) * W + W = d * W := by
      calc (d - 1) * W + W = (d - 1 + 1) * W := by ring
        _ = d * W := by rw [Nat.sub_add_cancel h1d]
    have heq : (d - 1) * W + m + W = q := by omega
    exact ⟨Or.inr (Or.inr (Or.inr (by omega))), by omega⟩
  · -- down neighbour (qx, qy + 1)
    have hxv : ((m : Int)).toNat = m := by omega
    have hyv : ((d : Int) + 1).toNat = d + 1 := by omega
    rw [hxv, hyv]
    have hdH : d + 1 < H := by omega
    have key : (d + 1) * W = d * W + W := by ring
    have heq : (d + 1) * W + m = q + W := by omega
    exact ⟨Or.inr (Or.inr (Or.inl (by omega))), pos_lt hm hdH⟩

theorem adj_nb {W H q q' : Nat} (hq : q < W * H) (hq' : q' < W * H)
    (hadj : Adj W q q') :
    ∃ nx ny : Int, (nx, ny) ∈ neighborList W q ∧
      ¬(nx < 0 ∨ (W : Int) ≤ nx ∨ ny < 0 ∨ (H : Int) ≤ ny) ∧
      ny.toNat * W + nx.toNat = q' := by
  obtain ⟨hm, hd, hdm⟩ := grid_pos hq
  have W0 : 0 < W := lt_of_le_of_lt (Nat.zero_le _) hm
  set m := q % W with hm_def
  set d := q / W with hd_def
  clear_value m d
  have hmem : ∀ c : Int × Int, c ∈ neighborList W q ↔
      c = ((m : Int) - 1, (d : Int)) ∨ c = ((m : Int) + 1, (d : Int)) ∨
      c = ((m : Int), (d : Int) - 1) ∨ c = ((m : Int), (d : Int) + 1) := by
    intro c
    simp [neighborList, ← hm_def, ← hd_def]
  rcases hadj with ⟨h1, hrow⟩ | ⟨h1, hrow⟩ | h1 | h1
  · -- q' = q + 1, same row
    have hm1 : m + 1 < W := by
      by_contra hcon
      have hmW : m + 1 = W := by omega
      have : q' = (d + 1) * W := by
        have : (d + 1) * W = d * W + W := by ring
        omega
      have : q' / W = d + 1 := by
        rw [this]
        have : (d + 1) * W = (d + 1) * W + 0 := by omega
        rw [this, rowcol_div W0]
      omega
    refine ⟨(m : Int) + 1, (d : Int), (hmem _).2 (Or.inr (Or.inl rfl)), ?_, ?_⟩
    · intro hcon
      rcases hcon with h | h | h | h <;> omega
    · have hxv : ((m : Int) + 1).toNat = m + 1 := by omega
      have hyv : ((d : Int)).toNat = d := by omega
      rw [hxv, hyv]; omega
  · -- q = q' + 1, same row
    have hm1 : 1 ≤ m := by
      by_contra hcon
      have hm0 : m = 0 := by omega
      have hd1 : 1 ≤ d := by
        by_contra hd0
        have hd00 : d = 0 := by omega
        rw [hd00, Nat.zero_mul] at hdm
        omega
      have key : (d - 1) * W + W = d * W := by
        calc (d - 1) * W + W = (d - 1 + 1) * W := by ring
          _ = d * W := by rw [Nat.sub_add_cancel hd1]
      have hq'' : q' = (d - 1) * W + (W - 1) := by omega
      have : q' / W = d - 1 := by
        rw [hq'', rowcol_div (by omega : W - 1 < W)]
      omega
    refine ⟨(m : Int) - 1, (d : Int), (hmem _).2 (Or.inl rfl), ?_, ?_⟩
    · intro hcon
      rcases hcon with h | h | h | h <;> omega
    · have hxv : ((m : Int) - 1).toNat = m - 1 := by omega
      have hyv : ((d : Int)).toNat = d := by omega
      rw [hxv, hyv]; omega
  · -- q' = q + W
    have key : (d + 1) * W = d * W + W := by ring
    have hdH : d + 1 < H := by
      have h2 : (d + 1) * W ≤ q' := by omega
      have h3 : (d + 1) * W < W * H := lt_of_le_of_lt h2 hq'
      by_contra hcon
      have : W * H ≤ (d + 1) * W := by
        calc W * H = H * W := Nat.mul_comm _ _
          _ ≤ (d + 1) * W := Nat.mul_le_mul_right W (by omega)
      omega
    refine ⟨(m : Int), (d : Int) + 1, (hmem _).2 (Or.inr (Or.inr (Or.inr rfl))), ?_, ?_⟩
    · intro hcon
      rcases hcon with h | h | h | h <;> omega
    · have hxv : ((m : Int)).toNat = m := by omega
      have hyv : ((d : Int) + 1).toNat = d + 1 := by omega
      rw [hxv, hyv]; omega
  · -- q = q' + W
    have hd1 : 1 ≤ d := by
      have hWq : W ≤ q := by omega
      rw [hd_def]
      exact (Nat.one_le_div_iff W0).2 hWq
    have key : (d - 1) * W + W = d * W := by
      calc (d - 1) * W + W = (d - 1 + 1) * W := by ring
        _ = d * W := by rw [Nat.sub_add_cancel hd1]
    refine ⟨(m : Int), (d : Int) - 1, (hmem _).2 (Or.inr (Or.inr (Or.inl rfl))), ?_, ?_⟩
    · intro hcon
      rcases hcon with h | h | h | h <;> omega
    · have hxv : ((m : Int)).toNat = m := by omega
      have hyv : ((d : Int) - 1).toNat = d - 1 := by omega
      rw [hxv, hyv]; omega

/-! ## Invariants of the neighbour-processing loop -/

theorem processNbs_frame (data : Nat → Nat) (W H cur : Nat) :
    ∀ (l : List (Int × Int)) (labels : Nat → Nat) (stack : List Nat) (p : Nat),
      labels p ≠ 0 →
      (processNbs data W H cur l (labels, stack)).1 p = labels p := by
  intro l
  induction l with
  | nil => intro labels stack p hp; rfl
  | cons c rest ih =>
      obtain ⟨nx, ny⟩ := c
      intro labels stack p hp
      simp only [processNbs]
      by_cases hb : nx < 0 ∨ (W : Int) ≤ nx ∨ ny < 0 ∨ (H : Int) ≤ ny
      · rw [if_pos hb]; exact ih labels stack p hp
      · rw [if_neg hb]
        by_cases h0 : labels (ny.toNat * W + nx.toNat) ≠ 0
        · rw [if_pos h0]; exact ih labels stack p hp
        · rw [if_neg h0]
          push_neg at h0
          have hne : p ≠ ny.toNat * W + nx.toNat := fun h => hp (h ▸ h0)
          by_cases hfg : fgAt data (ny.toNat * W + nx.toNat) = false
          · rw [if_pos hfg]
            rw [ih _ stack p (by simpa [hne] using hp)]
            simp [hne]
          · rw [if_neg hfg]
            rw [ih _ _ p (by simpa [hne] using hp)]
            simp [hne]

theorem processNbs_stack_mono (data : Nat → Nat) (W H cur : Nat) :
    ∀ (l : List (Int × Int)) (labels : Nat → Nat) (stack : List Nat) (r : Nat),
      r ∈ stack →
      r ∈ (processNbs data W H cur l (labels, stack)).2 := by
  intro l
  induction l with
  | nil => intro labels stack r hr; exact hr
  | cons c rest ih =>
      obtain ⟨nx, ny⟩ := c
      intro labels stack r hr
      simp only [processNbs]
      by_cases hb : nx < 0 ∨ (W : Int) ≤ nx ∨ ny < 0 ∨ (H : Int) ≤ ny
      · rw [if_pos hb]; exact ih labels stack r hr
      · rw [if_neg hb]
        by_cases h0 : labels (ny.toNat * W + nx.toNat) ≠ 0
        · rw [if_pos h0]; exact ih labels stack r hr
        · rw [if_neg h0]
          by_cases hfg : fgAt data (ny.toNat * W + nx.toNat) = false
          · rw [if_pos hfg]; exact ih _ stack r hr
          · rw [if_neg hfg]
            exact ih _ _ r (List.mem_cons_of_mem _ hr)

theorem processNbs_stack_src (data : Nat → Nat) (W H cur : Nat) (hcur : cur ≠ 0) :
    ∀ (l : List (Int × Int)) (labels : Nat → Nat) (stack : List Nat) (r : Nat),
      r ∈ (processNbs data W H cur l (labels, stack)).2 →
      r ∈ stack ∨ ((processNbs data W H cur l (labels, stack)).1 r = cur ∧ labels r = 0) := by
  intro l
  induction l with
  | nil => intro labels stack r hr; exact Or.inl hr
  | cons c rest ih =>
      obtain ⟨nx, ny⟩ := c
      intro labels stack r hr
      simp only [processNbs] at hr ⊢
      by_cases hb : nx < 0 ∨ (W : Int) ≤ nx ∨ ny < 0 ∨ (H : Int) ≤ ny
      · rw [if_pos hb] at hr ⊢; exact ih labels stack r hr
      · rw [if_neg hb] at hr ⊢
        by_cases h0 : labels (ny.toNat * W + nx.toNat) ≠ 0
        · rw [if_pos h0] at hr ⊢; exact ih labels stack r hr
        · rw [if_neg h0] at hr ⊢
          push_neg at h0
          by_cases hfg : fgAt data (ny.toNat * W + nx.toNat) = false
          · rw [if_pos hfg] at hr ⊢
            rcases ih _ stack r hr with h | ⟨hc, hl⟩
            · exact Or.inl h
            · refine Or.inr ⟨hc, ?_⟩
              by_cases hre : r = ny.toNat * W + nx.toNat
              · exact hre ▸ h0
              · simpa [hre] using hl
          · rw [if_neg hfg] at hr ⊢
            rcases ih _ ((ny.toNat * W + nx.toNat) :: stack) r hr with h | ⟨hc, hl⟩
            · rcases List.mem_cons.1 h with h | h
              · subst h
                refine Or.inr ⟨?_, h0⟩
                rw [processNbs_frame data W H cur rest
                  (fun r' => if r' = ny.toNat * W + nx.toNat then cur else labels r')
                  ((ny.toNat * W + nx.toNat) :: stack) _ (by simp [hcur])]
                simp
              · exact Or.inl h
            · refine Or.inr ⟨hc, ?_⟩
              by_cases hre : r = ny.toNat * W + nx.toNat
              · exact hre ▸ h0
              · simpa [hre] using hl

theorem processNbs_coverage (data : Nat → Nat) (W H cur : Nat) (hcur : cur ≠ 0) :
    ∀ (l : List (Int × Int)) (labels : Nat → Nat) (stack : List Nat) (nx ny : Int),
      (nx, ny) ∈ l →
      ¬(nx < 0 ∨ (W : Int) ≤ nx ∨ ny < 0 ∨ (H : Int) ≤ ny) →
      fgAt data (ny.toNat * W + nx.toNat) = true →
      (processNbs data W H cur l (labels, stack)).1 (ny.toNat * W + nx.toNat) ≠ 0 := by
  intro l
  induction l with
  | nil => intro labels stack nx ny hmem; exact absurd hmem (List.not_mem_nil _)
  | cons c rest ih =>
      obtain ⟨cx, cy⟩ := c
      intro labels stack nx ny hmem hg hfg
      rcases List.mem_cons.1 hmem with hhd | htl
      · -- the neighbour is the head being processed
        obtain ⟨hx, hy⟩ := Prod.mk.injEq .. ▸ hhd
        subst hx; subst hy
        simp only [processNbs]
        rw [if_neg hg]
        by_cases h0 : labels (ny.toNat * W + nx.toNat) ≠ 0
        · rw [if_pos h0]
          rw [processNbs_frame data W H cur _ _ _ _ h0]
          exact h0
        · rw [if_neg h0]
          rw [if_neg (by simp [hfg])]
          rw [processNbs_frame data W H cur rest
            (fun r => if r = ny.toNat * W + nx.toNat then cur else labels r)
            ((ny.toNat * W + nx.toNat) :: stack) _ (by simp [hcur])]
          simp [hcur]
      · -- the neighbour occurs later in the list
        simp only [processNbs]
        by_cases hb : cx < 0 ∨ (W : Int) ≤ cx ∨ cy < 0 ∨ (H : Int) ≤ cy
        · rw [if_pos hb]; exact ih labels stack nx ny htl hg hfg
        · rw [if_neg hb]
          by_cases h0 : labels (cy.toNat * W + cx.toNat) ≠ 0
          · rw [if_pos h0]; exact ih labels stack nx ny htl hg hfg
          · rw [if_neg h0]
            by_cases hfgc : fgAt data (cy.toNat * W + cx.toNat) = false
            · rw [if_pos hfgc]; exact ih _ stack nx ny htl hg hfg
            · rw [if_neg hfgc]; exact ih _ _ nx ny htl hg hfg

theorem processNbs_delta (data : Nat → Nat) (W H cur : Nat) (hcur : cur ≠ 0) :
    ∀ (l : List (Int × Int)) (labels : Nat → Nat) (stack : List Nat) (p : Nat),
      (processNbs data W H cur l (labels, stack)).1 p ≠ labels p →
      labels p = 0 ∧ (processNbs data W H cur l (labels, stack)).1 p = cur ∧
        p ∈ (processNbs data W H cur l (labels, stack)).2 ∧
        fgAt data p = true ∧
        ∃ nx ny : Int, (nx, ny) ∈ l ∧
          ¬(nx < 0 ∨ (W : Int) ≤ nx ∨ ny < 0 ∨ (H : Int) ≤ ny) ∧
          p = ny.toNat * W + nx.toNat := by
  intro l
  induction l with
  | nil => intro labels stack p hp; exact absurd rfl hp
  | cons c rest ih =>
      obtain ⟨nx, ny⟩ := c
      intro labels stack p hp
      simp only [processNbs] at hp ⊢
      by_cases hb : nx < 0 ∨ (W : Int) ≤ nx ∨ ny < 0 ∨ (H : Int) ≤ ny
      · rw [if_pos hb] at hp ⊢
        obtain ⟨h1, h2, h3, h4, nx', ny', hm, hg, he⟩ := ih labels stack p hp
        exact ⟨h1, h2, h3, h4, nx', ny', List.mem_cons_of_mem _ hm, hg, he⟩
      · rw [if_neg hb] at hp ⊢
        by_cases h0 : labels (ny.toNat * W + nx.toNat) ≠ 0
        · rw [if_pos h0] at hp ⊢
          obtain ⟨h1, h2, h3, h4, nx', ny', hm, hg, he⟩ := ih labels stack p hp
          exact ⟨h1, h2, h3, h4, nx', ny', List.mem_cons_of_mem _ hm, hg, he⟩
        · rw [if_neg h0] at hp ⊢
          push_neg at h0
          by_cases hfg : fgAt data (ny.toNat * W + nx.toNat) = false
          · rw [if_pos hfg] at hp ⊢
            have hp' : (processNbs data W H cur rest
                ((fun r => if r = ny.toNat * W + nx.toNat then 0 else labels r), stack)).1 p ≠
                (fun r => if r = ny.toNat * W + nx.toNat then 0 else labels r) p := by
              intro hcon
              by_cases hre : p = ny.toNat * W + nx.toNat
              · exact hp (by rw [hcon]; simp [hre, h0])
              · exact hp (by rw [hcon]; simp [hre])
            obtain ⟨h1, h2, h3, h4, nx', ny', hm, hg, he⟩ := ih _ stack p hp'
            refine ⟨?_, h2, h3, h4, nx', ny', List.mem_cons_of_mem _ hm, hg, he⟩
            by_cases hre : p = ny.toNat * W + nx.toNat
            · exact hre ▸ h0
            · simpa [hre] using h1
          · rw [if_neg hfg] at hp ⊢
            have hfg' : fgAt data (ny.toNat * W + nx.toNat) = true := by
              simpa using hfg
            by_cases hre : p = ny.toNat * W + nx.toNat
            · have hfr := processNbs_frame data W H cur rest
                (fun r => if r = ny.toNat * W + nx.toNat then cur else labels r)
                ((ny.toNat * W + nx.toNat) :: stack) p (by simp [hre, hcur])
              refine ⟨by rw [hre]; exact h0, ?_, ?_, by rw [hre]; exact hfg',
                nx, ny, List.mem_cons_self _ _, hb, hre⟩
              · rw [hfr]; simp [hre]
              · exact processNbs_stack_mono data W H cur rest _ _ p
                  (by rw [hre]; exact List.mem_cons_self _ _)
            · have hp' : (processNbs data W H cur rest
                  ((fun r => if r = ny.toNat * W + nx.toNat then cur else labels r),
                    (ny.toNat * W + nx.toNat) :: stack)).1 p ≠
                  (fun r => if r = ny.toNat * W + nx.toNat then cur else labels r) p := by
                intro hcon
                exact hp (by rw [hcon]; simp [hre])
              obtain ⟨h1, h2, h3, h4, nx', ny', hm, hg, he⟩ := ih _ _ p hp'
              refine ⟨?_, h2, h3, h4, nx', ny', List.mem_cons_of_mem _ hm, hg, he⟩
              simpa [hre] using h1

/-! ## Termination measure of the flood fill -/

/-- Number of zero-labelled in-range pixels plus the stack height; each
`while`-loop iteration strictly decreases it. -/
def fillMeasure (W H : Nat) (labels : Nat → Nat) (stack : List Nat) : Nat :=
  ((Finset.range (W * H)).filter fun p => labels p = 0).card + stack.length

theorem zeros_update_card {W H np cur : Nat} (labels : Nat → Nat)
    (hnp : np < W * H) (h0 : labels np = 0) (hcur : cur ≠ 0) :
    (((Finset.range (W * H)).filter
        fun p => (if p = np then cur else labels p) = 0).card) + 1
      = ((Finset.range (W * H)).filter fun p => labels p = 0).card := by
  have hset : ((Finset.range (W * H)).filter
      fun p => (if p = np then cur else labels p) = 0)
      = ((Finset.range (W * H)).filter fun p => labels p = 0).erase np := by
    ext r
    simp only [Finset.mem_filter, Finset.mem_erase, Finset.mem_range]
    constructor
    · intro ⟨hr, hv⟩
      by_cases hre : r = np
      · simp [hre] at hv
        exact absurd hv hcur
      · simp [hre] at hv
        exact ⟨hre, hr, hv⟩
    · intro ⟨hne, hr, hv⟩
      exact ⟨hr, by simp [hne, hv]⟩
  have hmem : np ∈ (Finset.range (W * H)).filter fun p => labels p = 0 := by
    simp [Finset.mem_filter, Finset.mem_range, hnp, h0]
  rw [hset, Finset.card_erase_of_mem hmem]
  have : 1 ≤ ((Finset.range (W * H)).filter fun p => labels p = 0).card :=
    Finset.card_pos.2 ⟨np, hmem⟩
  omega

theorem processNbs_measure (data : Nat → Nat) (W H cur : Nat) (hcur : cur ≠ 0) :
    ∀ (l : List (Int × Int)) (labels : Nat → Nat) (stack : List Nat),
      fillMeasure W H (processNbs data W H cur l (labels, stack)).1
          (processNbs data W H cur l (labels, stack)).2
        ≤ fillMeasure W H labels stack := by
  intro l
  induction l with
  | nil => intro labels stack; exact le_refl _
  | cons c rest ih =>
      obtain ⟨nx, ny⟩ := c
      intro labels stack
      simp only [processNbs]
      by_cases hb : nx < 0 ∨ (W : Int) ≤ nx ∨ ny < 0 ∨ (H : Int) ≤ ny
      · rw [if_pos hb]; exact ih labels stack
      · rw [if_neg hb]
        by_cases h0 : labels (ny.toNat * W + nx.toNat) ≠ 0
        · rw [if_pos h0]; exact ih labels stack
        · rw [if_neg h0]
          push_neg at h0
          by_cases hfg : fgAt data (ny.toNat * W + nx.toNat) = false
          · rw [if_pos hfg]
            have heq : (fun r => if r = ny.toNat * W + nx.toNat then 0 else labels r)
                = labels := by
              funext r
              by_cases hre : r = ny.toNat * W + nx.toNat
              · simp [hre, h0]
              · simp [hre]
            rw [heq]
            exact ih labels stack
          · rw [if_neg hfg]
            have hnp : ny.toNat * W + nx.toNat < W * H := by
              push_neg at hb
              exact pos_lt (by omega) (by omega)
            calc fillMeasure W H
                  (processNbs data W H cur rest
                    ((fun r => if r = ny.toNat * W + nx.toNat then cur else labels r),
                      (ny.toNat * W + nx.toNat) :: stack)).1
                  (processNbs data W H cur rest
                    ((fun r => if r = ny.toNat * W + nx.toNat then cur else labels r),
                      (ny.toNat * W + nx.toNat) :: stack)).2
                ≤ fillMeasure W H
                    (fun r => if r = ny.toNat * W + nx.toNat then cur else labels r)
                    ((ny.toNat * W + nx.toNat) :: stack) := ih _ _
              _ = fillMeasure W H labels stack := by
                  simp only [fillMeasure, List.length_cons]
                  have := zeros_update_card labels hnp h0 hcur
                  omega

/-! ## The flood-fill loop invariant -/

/-- Invariant of the `while` loop of `buildComponentMap` while filling the
component with id `cur` from the scan pixel `seed`. -/
structure FillInv (data : Nat → Nat) (W H cur seed : Nat)
    (labels : Nat → Nat) (stack : List Nat) : Prop where
  stackLab : ∀ q ∈ stack, labels q = cur
  labBound : ∀ p, labels p ≠ 0 → p < W * H ∧ fgAt data p = true
  seedLab : labels seed = cur
  curConn : ∀ p, labels p = cur → ConnIn W (fun r => labels r = cur) seed p
  curClosed : ∀ p, labels p = cur → p ∉ stack →
      ∀ q, Adj W p q → q < W * H → fgAt data q = true → labels q ≠ 0
  oldClosed : ∀ p, labels p ≠ 0 → labels p ≠ cur →
      ∀ q, Adj W p q → q < W * H → fgAt data q = true → labels q = labels p

theorem floodLoop_spec (data : Nat → Nat) (W H cur seed : Nat) (hcur : cur ≠ 0) :
    ∀ (fuel : Nat) (labels : Nat → Nat) (stack : List Nat),
      fillMeasure W H labels stack ≤ fuel →
      FillInv data W H cur seed labels stack →
      (∀ p, labels p ≠ 0 → floodLoop data W H cur fuel labels stack p = labels p) ∧
      (∀ p, floodLoop data W H cur fuel labels stack p ≠ labels p →
          labels p = 0 ∧ floodLoop data W H cur fuel labels stack p = cur) ∧
      FillInv data W H cur seed (floodLoop data W H cur fuel labels stack) [] := by
  intro fuel
  induction fuel with
  | zero =>
      intro labels stack hfuel hinv
      have hstack : stack = [] := by
        have := hfuel
        simp only [fillMeasure] at this
        have : stack.length = 0 := by omega
        exact List.length_eq_zero.1 this
      subst hstack
      exact ⟨fun p _ => rfl, fun p hp => absurd rfl hp, hinv⟩
  | succ fuel ih =>
      intro labels stack hfuel hinv
      cases stack with
      | nil =>
          exact ⟨fun p _ => rfl, fun p hp => absurd rfl hp, hinv⟩
      | cons q rest =>
          have hqlab : labels q = cur := hinv.stackLab q (List.mem_cons_self _ _)
          have hqb := hinv.labBound q (by rw [hqlab]; exact hcur)
          simp only [floodLoop]
          set st := processNbs data W H cur (neighborList W q) (labels, rest) with hst
          -- step facts
          have hframe : ∀ p, labels p ≠ 0 → st.1 p = labels p := fun p hp =>
            processNbs_frame data W H cur _ labels rest p hp
          have hdelta : ∀ p, st.1 p ≠ labels p →
              labels p = 0 ∧ st.1 p = cur ∧ p ∈ st.2 ∧ fgAt data p = true ∧
              Adj W q p ∧ p < W * H := by
            intro p hp
            obtain ⟨h1, h2, h3, h4, nx, ny, hm, hg, he⟩ :=
              processNbs_delta data W H cur hcur _ labels rest p hp
            obtain ⟨hadj, hlt⟩ := nb_adj hqb.1 hm hg
            exact ⟨h1, h2, h3, h4, he ▸ hadj, he ▸ hlt⟩
          have hstack_mono : ∀ r, r ∈ rest → r ∈ st.2 := fun r hr =>
            processNbs_stack_mono data W H cur _ labels rest r hr
          have hstack_src : ∀ r, r ∈ st.2 →
              r ∈ rest ∨ (st.1 r = cur ∧ labels r = 0) := fun r hr =>
            processNbs_stack_src data W H cur hcur _ labels rest r hr
          -- invariant after the step
          have hinv' : FillInv data W H cur seed st.1 st.2 := by
            refine ⟨?_, ?_, ?_, ?_, ?_, ?_⟩
            · -- stackLab
              intro r hr
              rcases hstack_src r hr with h | ⟨hc, _⟩
              · have : labels r = cur := hinv.stackLab r (List.mem_cons_of_mem _ h)
                rw [hframe r (by rw [this]; exact hcur), this]
              · exact hc
            · -- labBound
              intro p hp
              by_cases hch : st.1 p = labels p
              · exact hinv.labBound p (by rw [← hch]; exact hp)
              · obtain ⟨_, _, _, hfg, _, hlt⟩ := hdelta p hch
                exact ⟨hlt, hfg⟩
            · -- seedLab
              rw [hframe seed (by rw [hinv.seedLab]; exact hcur), hinv.seedLab]
            · -- curConn
              intro p hp
              by_cases hch : st.1 p = labels p
              · have : labels p = cur := by rw [← hch]; exact hp
                exact connIn_mono
                  (fun r hr => by rw [hframe r (by rw [hr]; exact hcur)]; exact hr)
                  (hinv.curConn p this)
              · obtain ⟨_, hc, _, _, hadj, _⟩ := hdelta p hch
                have hq' : ConnIn W (fun r => st.1 r = cur) seed q :=
                  connIn_mono
                    (fun r hr => by rw [hframe r (by rw [hr]; exact hcur)]; exact hr)
                    (hinv.curConn q hqlab)
                have hstq : st.1 q = cur := by
                  rw [hframe q (by rw [hqlab]; exact hcur)]; exact hqlab
                exact connIn_trans hq'
                  ⟨hstq, Relation.ReflTransGen.single ⟨hadj, hc⟩⟩
            · -- curClosed
              intro p hp hnp q' hadj hq' hfg
              by_cases hpq : p = q
              · subst hpq
                obtain ⟨nx, ny, hm, hg, he⟩ := adj_nb hqb.1 hq' hadj
                rw [← he]
                exact processNbs_coverage data W H cur hcur _ labels rest nx ny hm hg
                  (he ▸ hfg)
              · by_cases hch : st.1 p = labels p
                · have hlp : labels p = cur := by rw [← hch]; exact hp
                  have hpnotin : p ∉ (q :: rest) := by
                    intro hmem
                    rcases List.mem_cons.1 hmem with h | h
                    · exact hpq h
                    · exact hnp (hstack_mono p h)
                  have := hinv.curClosed p hlp hpnotin q' hadj hq' hfg
                  intro hcon
                  apply this
                  by_contra hne
                  have := hframe q' hne
                  rw [hcon] at this
                  exact hne this.symm
                · obtain ⟨_, _, hin, _, _, _⟩ := hdelta p hch
                  exact absurd hin hnp
            · -- oldClosed
              intro p hp hpc q' hadj hq' hfg
              have hch : st.1 p = labels p := by
                by_contra hch
                exact hpc (hdelta p hch).2.1
              have hlp : labels p ≠ 0 := by rw [← hch]; exact hp
              have hlpc : labels p ≠ cur := by rw [← hch]; exact hpc
              have := hinv.oldClosed p hlp hlpc q' hadj hq' hfg
              rw [hframe q' (by rw [this]; exact hlp), this, hch]
          -- measure decreases
          have hfuel' : fillMeasure W H st.1 st.2 ≤ fuel := by
            have h1 := processNbs_measure data W H cur hcur (neighborList W q) labels rest
            have h2 : fillMeasure W H labels (q :: rest)
                = fillMeasure W H labels rest + 1 := by
              simp only [fillMeasure, List.length_cons]
              omega
            rw [← hst] at h1
            omega
          obtain ⟨ihframe, ihdelta, ihinv⟩ := ih st.1 st.2 hfuel' hinv'
          refine ⟨?_, ?_, ihinv⟩
          · intro p hp
            rw [ihframe p (by rw [hframe p hp]; exact hp), hframe p hp]
          · intro p hp
            by_cases hch : st.1 p = labels p
            · have : floodLoop data W H cur fuel st.1 st.2 p ≠ st.1 p := by
                rw [hch]; exact hp
              obtain ⟨h1, h2⟩ := ihdelta p this
              exact ⟨by rw [← hch]; exact h1, h2⟩
            · obtain ⟨h1, h2, _, _, _, _⟩ := hdelta p hch
              refine ⟨h1, ?_⟩
              rw [ihframe p (by rw [h2]; exact hcur), h2]

/-! ## The outer scan -/

/-- The flat positions `s, s+1, ..., s+n-1`. -/
def idsFrom (s : Nat) : Nat → List Nat
  | 0 => []
  | n + 1 => s :: idsFrom (s + 1) n

theorem idsFrom_snoc : ∀ (n s : Nat), idsFrom s (n + 1) = idsFrom s n ++ [s + n] := by
  intro n
  induction n with
  | zero => intro s; simp [idsFrom]
  | succ n ih =>
      intro s
      show s :: idsFrom (s + 1) (n + 1) = (s :: idsFrom (s + 1) n) ++ [s + (n + 1)]
      rw [ih (s + 1)]
      simp [Nat.add_assoc, Nat.add_comm 1 n]

theorem idsFrom_append : ∀ (m n s : Nat),
    idsFrom s (m + n) = idsFrom s m ++ idsFrom (s + m) n := by
  intro m
  induction m with
  | zero => intro n s; simp [idsFrom]
  | succ m ih =>
      intro n s
      show idsFrom s (m + 1 + n) = (s :: idsFrom (s + 1) m) ++ idsFrom (s + (m + 1)) n
      have h1 : m + 1 + n = (m + n) + 1 := by omega
      rw [h1]
      show s :: idsFrom (s + 1) (m + n) = s :: (idsFrom (s + 1) m ++ idsFrom (s + (m + 1)) n)
      rw [ih n (s + 1)]
      have h2 : s + 1 + m = s + (m + 1) := by omega
      rw [h2]

theorem range_map_add (s : Nat) : ∀ n : Nat,
    (List.range n).map (fun x => s + x) = idsFrom s n := by
  intro n
  induction n with
  | zero => simp [idsFrom]
  | succ n ih =>
      rw [List.range_succ, List.map_append, ih, List.map_singleton, ← idsFrom_snoc]

theorem rowMajor_map (W : Nat) : ∀ H : Nat,
    (rowMajor W H).map (fun xy => xy.2 * W + xy.1) = idsFrom 0 (W * H) := by
  intro H
  induction H with
  | zero => simp [rowMajor, idsFrom]
  | succ h ih =>
      show ((rowMajor W h ++ rowOf W h).map fun xy => xy.2 * W + xy.1) = _
      rw [List.map_append, ih]
      have hrow : (rowOf W h).map (fun xy => xy.2 * W + xy.1)
          = idsFrom (h * W) W := by
        have hcomp : ((fun xy : Nat × Nat => xy.2 * W + xy.1) ∘ fun x => (x, h))
            = fun x => h * W + x := rfl
        rw [rowOf, List.map_map, hcomp, range_map_add]
      rw [hrow]
      have h4 : W * (h + 1) = W * h + W := by ring
      rw [h4, idsFrom_append (W * h) W 0, Nat.zero_add, Nat.mul_comm h W]

theorem rowMajor_bounds (W : Nat) : ∀ H : Nat, ∀ xy ∈ rowMajor W H,
    xy.1 < W ∧ xy.2 < H := by
  intro H
  induction H with
  | zero => intro xy h; simp [rowMajor] at h
  | succ h ih =>
      intro xy hmem
      rcases List.mem_append.1 hmem with h1 | h1
      · obtain ⟨ha, hb⟩ := ih xy h1
        exact ⟨ha, Nat.lt_succ_of_lt hb⟩
      · simp only [rowOf, List.mem_map, List.mem_range] at h1
        obtain ⟨x, hx, hxy⟩ := h1
        subst hxy
        exact ⟨hx, Nat.lt_succ_self h⟩

/-- Invariant of the outer row-major scan of `buildComponentMap` after `s`
pixels have been processed: all assigned labels are foreground and lie in
`[1, cur]`, every processed foreground pixel is labelled, label classes are
4-closed amongst foreground pixels, each class is connected to a seed, and
the minimal (seed) pixels of the classes appear in strictly increasing
order of their label. -/
structure ScanInv (data : Nat → Nat) (W H : Nat)
    (labels : Nat → Nat) (cur s : Nat) : Prop where
  labBound : ∀ p, labels p ≠ 0 →
      p < W * H ∧ fgAt data p = true ∧ 1 ≤ labels p ∧ labels p ≤ cur
  resolved : ∀ p, p < s → fgAt data p = true → labels p ≠ 0
  closed : ∀ p, labels p ≠ 0 →
      ∀ q, Adj W p q → q < W * H → fgAt data q = true → labels q = labels p
  connected : ∀ l, 1 ≤ l → l ≤ cur →
      ∃ sd, labels sd = l ∧ ∀ p, labels p = l → ConnIn W (fun r => labels r = l) sd p
  seeds : ∀ l, 1 ≤ l → l ≤ cur →
      ∃ sd, labels sd = l ∧ sd < s ∧ ∀ p, labels p = l → sd ≤ p
  seedOrder : ∀ l1 l2, 1 ≤ l1 → l1 < l2 → l2 ≤ cur →
      ∀ sd2, labels sd2 = l2 → ∃ sd1, labels sd1 = l1 ∧ sd1 < sd2

theorem scanStep_inv (data : Nat → Nat) (W H : Nat) :
    ∀ (l : List (Nat × Nat)) (n s : Nat) (labels : Nat → Nat) (cur : Nat),
      l.map (fun xy => xy.2 * W + xy.1) = idsFrom s n →
      (∀ xy ∈ l, xy.1 < W ∧ xy.2 < H) →
      ScanInv data W H labels cur s →
      ScanInv data W H (scanStep data W H l labels cur).1
        (scanStep data W H l labels cur).2 (s + n) := by
  intro l
  induction l with
  | nil =>
      intro n s labels cur hmap hbd hinv
      cases n with
      | zero => simpa using hinv
      | succ n' => simp [idsFrom] at hmap
  | cons hd rest ih =>
      obtain ⟨x, y⟩ := hd
      intro n s labels cur hmap hbd hinv
      cases n with
      | zero => simp [idsFrom] at hmap
      | succ n' =>
          have hmap' : (y * W + x) :: rest.map (fun xy => xy.2 * W + xy.1)
              = s :: idsFrom (s + 1) n' := by simpa [idsFrom] using hmap
          injection hmap' with hhead htail
          obtain ⟨hx, hy⟩ := hbd (x, y) (List.mem_cons_self _ _)
          have hbd' : ∀ xy ∈ rest, xy.1 < W ∧ xy.2 < H :=
            fun xy hxy => hbd xy (List.mem_cons_of_mem _ hxy)
          have hplt : s < W * H := hhead ▸ pos_lt hx hy
          have hidx : s + (n' + 1) = (s + 1) + n' := by omega
          rw [hidx]
          simp only [scanStep]
          rw [hhead]
          by_cases hA : labels s ≠ 0
          · rw [if_pos hA]
            refine ih n' (s + 1) labels cur htail hbd' ?_
            refine ⟨hinv.labBound, ?_, hinv.closed, hinv.connected, ?_, hinv.seedOrder⟩
            · intro p' hp' hfg
              rcases Nat.lt_succ_iff_lt_or_eq.1 hp' with h | h
              · exact hinv.resolved p' h hfg
              · rw [h]; exact hA
            · intro l' h1 h2
              obtain ⟨sd, h3, h4, h5⟩ := hinv.seeds l' h1 h2
              exact ⟨sd, h3, by omega, h5⟩
          · rw [if_neg hA]
            push_neg at hA
            by_cases hB : fgAt data s = false
            · rw [if_pos hB]
              have hfn : (fun r => if r = s then 0 else labels r) = labels := by
                funext r
                by_cases hr : r = s
                · rw [hr, if_pos rfl, hA]
                · rw [if_neg hr]
              rw [hfn]
              refine ih n' (s + 1) labels cur htail hbd' ?_
              refine ⟨hinv.labBound, ?_, hinv.closed, hinv.connected, ?_, hinv.seedOrder⟩
              · intro p' hp' hfg
                rcases Nat.lt_succ_iff_lt_or_eq.1 hp' with h | h
                · exact hinv.resolved p' h hfg
                · rw [h] at hfg; rw [hfg] at hB; exact absurd hB (by simp)
              · intro l' h1 h2
                obtain ⟨sd, h3, h4, h5⟩ := hinv.seeds l' h1 h2
                exact ⟨sd, h3, by omega, h5⟩
            · rw [if_neg hB]
              have hfg : fgAt data s = true := by
                cases hv : fgAt data s
                · exact absurd hv hB
                · rfl
              have hcur' : cur + 1 ≠ 0 := Nat.succ_ne_zero cur
              -- the invariant holds when the fill starts
              have hfill : FillInv data W H (cur + 1) s
                  (fun r => if r = s then cur + 1 else labels r) [s] := by
                refine ⟨?_, ?_, ?_, ?_, ?_, ?_⟩
                · intro q hq
                  rcases List.mem_cons.1 hq with h | h
                  · rw [h]; simp
                  · simp at h
                · intro r hr
                  by_cases hre : r = s
                  · rw [hre]; exact ⟨hplt, hfg⟩
                  · rw [if_neg hre] at hr
                    obtain ⟨ha, hb, _, _⟩ := hinv.labBound r hr
                    exact ⟨ha, hb⟩
                · simp
                · intro r hr
                  by_cases hre : r = s
                  · subst hre
                    exact ⟨by simp, Relation.ReflTransGen.refl⟩
                  · rw [if_neg hre] at hr
                    obtain ⟨_, _, _, hle⟩ := hinv.labBound r (by rw [hr]; exact hcur')
                    omega
                · intro r hr hnr
                  by_cases hre : r = s
                  · exact absurd (by rw [hre]; exact List.mem_cons_self _ _) hnr
                  · rw [if_neg hre] at hr
                    obtain ⟨_, _, _, hle⟩ := hinv.labBound r (by rw [hr]; exact hcur')
                    omega
                · intro r hr hrc q' hadj hq' hfg'
                  by_cases hre : r = s
                  · rw [hre, if_pos rfl] at hrc
                    exact absurd rfl hrc
                  · rw [if_neg hre] at hr hrc ⊢
                    have := hinv.closed r hr q' hadj hq' hfg'
                    have hq's : q' ≠ s := by
                      intro hcon
                      rw [hcon, hA] at this
                      exact hr this.symm
                    rw [if_neg hq's]
                    exact this
              have hmeas : fillMeasure W H
                  (fun r => if r = s then cur + 1 else labels r) [s] ≤ W * H + 1 := by
                simp only [fillMeasure, List.length_singleton]
                have := Finset.card_filter_le (Finset.range (W * H))
                  (fun p => (if p = s then cur + 1 else labels p) = 0)
                rw [Finset.card_range] at this
                omega
              obtain ⟨Fframe, Fdelta, Finv⟩ := floodLoop_spec data W H (cur + 1) s hcur'
                (W * H + 1) (fun r => if r = s then cur + 1 else labels r) [s] hmeas hfill
              set fl := floodLoop data W H (cur + 1) (W * H + 1)
                (fun r => if r = s then cur + 1 else labels r) [s] with hfl
              have hfls : fl s = cur + 1 := by
                rw [Fframe s (by simp)]
                simp
              -- old label classes are unchanged
              have hset : ∀ l', l' ≠ 0 → l' ≠ cur + 1 → ∀ r, (fl r = l' ↔ labels r = l') := by
                intro l' hl0 hlc r
                constructor
                · intro hr
                  by_cases hch : fl r = (if r = s then cur + 1 else labels r)
                  · rw [hr] at hch
                    by_cases hre : r = s
                    · rw [if_pos hre] at hch
                      exact absurd hch hlc
                    · rw [if_neg hre] at hch
                      exact hch.symm
                  · obtain ⟨_, h2⟩ := Fdelta r hch
                    exact absurd (hr.symm.trans h2) hlc
                · intro hr
                  have hre : r ≠ s := by
                    intro hcon
                    rw [hcon, hA] at hr
                    exact hl0 hr.symm
                  have hv : (if r = s then cur + 1 else labels r) = l' := by
                    rw [if_neg hre]; exact hr
                  rw [Fframe r (by rw [hv]; exact hl0), hv]
              -- pixels newly labelled by this fill lie at or after the seed
              have hge : ∀ r, fl r = cur + 1 → s ≤ r := by
                intro r hr
                by_cases hch : fl r = (if r = s then cur + 1 else labels r)
                · rw [hr] at hch
                  by_cases hre : r = s
                  · omega
                  · rw [if_neg hre] at hch
                    obtain ⟨_, _, _, hle⟩ := hinv.labBound r (by rw [← hch]; exact hcur')
                    omega
                · obtain ⟨h1, h2⟩ := Fdelta r hch
                  have hre : r ≠ s := by
                    intro hcon
                    rw [hcon] at h1
                    simp at h1
                  rw [if_neg hre] at h1
                  have hfgr : fgAt data r = true := (Finv.labBound r (by rw [h2]; exact hcur')).2
                  by_contra hcon
                  exact (hinv.resolved r (by omega) hfgr) h1
              refine ih n' (s + 1) fl (cur + 1) htail hbd' ?_
              refine ⟨?_, ?_, ?_, ?_, ?_, ?_⟩
              · -- labBound
                intro r hr
                obtain ⟨ha, hb⟩ := Finv.labBound r hr
                refine ⟨ha, hb, ?_, ?_⟩
                · by_cases hre : fl r = cur + 1
                  · omega
                  · have hlr : labels r = fl r := (hset (fl r) hr hre r).1 rfl
                    obtain ⟨_, _, hc, _⟩ := hinv.labBound r (by rw [hlr]; exact hr)
                    omega
                · by_cases hre : fl r = cur + 1
                  · omega
                  · have hlr : labels r = fl r := (hset (fl r) hr hre r).1 rfl
                    obtain ⟨_, _, _, hd⟩ := hinv.labBound r (by rw [hlr]; exact hr)
                    omega
              · -- resolved
                intro p' hp' hfgp
                rcases Nat.lt_succ_iff_lt_or_eq.1 hp' with h | h
                · have h1 : labels p' ≠ 0 := hinv.resolved p' h hfgp
                  have hre : p' ≠ s := by
                    intro hcon
                    rw [hcon, hA] at h1
                    exact h1 rfl
                  have h2 : (if p' = s then cur + 1 else labels p') ≠ 0 := by
                    rw [if_neg hre]; exact h1
                  rw [Fframe p' h2]
                  exact h2
                · rw [h]
                  rw [hfls]
                  exact hcur'
              · -- closed
                intro r hr q' hadj hq' hfg'
                by_cases hrc : fl r = cur + 1
                · have hq0 : fl q' ≠ 0 :=
                    Finv.curClosed r hrc (List.not_mem_nil r) q' hadj hq' hfg'
                  rcases eq_or_ne (fl q') (cur + 1) with hqc | hqc
                  · rw [hqc, hrc]
                  · have := Finv.oldClosed q' hq0 hqc r hadj.symm
                      (Finv.labBound r hr).1 (Finv.labBound r hr).2
                    rw [this] at hrc
                    exact absurd hrc hqc
                · have hl0 : fl r ≠ 0 := hr
                  have hlab : labels r = fl r := (hset (fl r) hl0 hrc r).1 rfl
                  have := hinv.closed r (by rw [hlab]; exact hl0) q' hadj hq' hfg'
                  rw [hlab] at this
                  exact (hset (fl r) hl0 hrc q').2 this
              · -- connected
                intro l' h1 h2
                rcases eq_or_ne l' (cur + 1) with hc | hc
                · subst hc
                  exact ⟨s, hfls, fun r hr => Finv.curConn r hr⟩
                · have h2' : l' ≤ cur := by omega
                  obtain ⟨sd, hsd, hconn⟩ := hinv.connected l' h1 h2'
                  have hl0 : l' ≠ 0 := by omega
                  have hpred : (fun r => fl r = l') = (fun r => labels r = l') :=
                    funext fun r => propext (hset l' hl0 hc r)
                  refine ⟨sd, (hset l' hl0 hc sd).2 hsd, fun r hr => ?_⟩
                  rw [hpred]
                  exact hconn r ((hset l' hl0 hc r).1 hr)
              · -- seeds
                intro l' h1 h2
                rcases eq_or_ne l' (cur + 1) with hc | hc
                · subst hc
                  exact ⟨s, hfls, by omega, fun r hr => hge r hr⟩
                · have h2' : l' ≤ cur := by omega
                  have hl0 : l' ≠ 0 := by omega
                  obtain ⟨sd, hsd, hlt, hmin⟩ := hinv.seeds l' h1 h2'
                  exact ⟨sd, (hset l' hl0 hc sd).2 hsd, by omega,
                    fun r hr => hmin r ((hset l' hl0 hc r).1 hr)⟩
              · -- seedOrder
                intro l1 l2 h1 h12 h2 sd2 hsd2
                rcases eq_or_ne l2 (cur + 1) with hc | hc
                · subst hc
                  have hs2 : s ≤ sd2 := hge sd2 hsd2
                  have h1' : l1 ≤ cur := by omega
                  have hl10 : l1 ≠ 0 := by omega
                  have hl1c : l1 ≠ cur + 1 := by omega
                  obtain ⟨sd1, hsd1, hlt, _⟩ := hinv.seeds l1 h1 h1'
                  exact ⟨sd1, (hset l1 hl10 hl1c sd1).2 hsd1, by omega⟩
                · have h2' : l2 ≤ cur := by omega
                  have hl20 : l2 ≠ 0 := by omega
                  have hl10 : l1 ≠ 0 := by omega
                  have hl1c : l1 ≠ cur + 1 := by omega
                  obtain ⟨sd1, hsd1, hlt⟩ := hinv.seedOrder l1 l2 h1 h12 h2' sd2
                    ((hset l2 hl20 hc sd2).1 hsd2)
                  exact ⟨sd1, (hset l1 hl10 hl1c sd1).2 hsd1, hlt⟩

/-- The scan invariant holds of the finished label map, with every pixel
processed. -/
theorem buildComponentMap_inv (data : Nat → Nat) (W H : Nat) :
    ScanInv data W H (buildComponentMap data W H).1
      (buildComponentMap data W H).2 (W * H) := by
  have hinv0 : ScanInv data W H (fun _ => 0) 0 0 := by
    refine ⟨?_, ?_, ?_, ?_, ?_, ?_⟩
    · intro p hp; exact absurd rfl hp
    · intro p hp; omega
    · intro p hp; exact absurd rfl hp
    · intro l h1 h2; omega
    · intro l h1 h2; omega
    · intro l1 l2 h1 h12 h2; omega
  have := scanStep_inv data W H (rowMajor W H) (W * H) 0 (fun _ => 0) 0
    (rowMajor_map W H) (rowMajor_bounds W H) hinv0
  simpa [buildComponentMap] using this

/-! ## Claims about the Label Map Builder -/

/-- Claim C2: for every input buffer and pixel position `p` inside the
image, the label array has `labelArray[p] = 0` iff the Foreground
Classifier rejects the pixel at `p`: every foreground pixel receives a
positive label and every background pixel keeps label 0. -/
theorem buildComponentMap_background (data : Nat → Nat) (W H p : Nat)
    (hp : p < W * H) :
    ((buildComponentMap data W H).1 p = 0 ↔ fgAt data p = false) := by
  have hinv := buildComponentMap_inv data W H
  constructor
  · intro h0
    cases hv : fgAt data p
    · rfl
    · exact absurd h0 (hinv.resolved p hp hv)
  · intro hbg
    by_contra hne
    have := (hinv.labBound p hne).2.1
    rw [this] at hbg
    exact Bool.noConfusion hbg

/-- Concrete instance of `buildComponentMap_background` on a 1-by-1 black
image. -/
theorem buildComponentMap_background_witness :
    0 < 1 * 1 ∧
    ((buildComponentMap (fun _ => 0) 1 1).1 0 = 0 ↔ fgAt (fun _ => 0) 0 = false) :=
  ⟨by decide, buildComponentMap_background (fun _ => 0) 1 1 0 (by decide)⟩

/-- Claim C1: the label array of the Label Map Builder cuts the foreground
into 4-connected components: two positions with the same non-zero label are
joined by a 4-connected path through positions of that same label, and a
4-connected path of foreground pixels never spans two different labels
(hence never two different non-zero labels). -/
theorem buildComponentMap_connectivity (data : Nat → Nat) (W H : Nat) :
    (∀ p q, (buildComponentMap data W H).1 p ≠ 0 →
        (buildComponentMap data W H).1 q = (buildComponentMap data W H).1 p →
        ConnIn W
          (fun r => (buildComponentMap data W H).1 r = (buildComponentMap data W H).1 p)
          p q) ∧
    (∀ p q, ConnIn W (fun r => r < W * H ∧ fgAt data r = true) p q →
        (buildComponentMap data W H).1 p = (buildComponentMap data W H).1 q) := by
  have hinv := buildComponentMap_inv data W H
  constructor
  · intro p q hp hq
    obtain ⟨_, _, h1, h2⟩ := hinv.labBound p hp
    obtain ⟨sd, hsd, hconn⟩ := hinv.connected ((buildComponentMap data W H).1 p) h1 h2
    exact connIn_trans (connIn_symm (hconn p rfl)) (hconn q hq)
  · intro p q hconn
    obtain ⟨⟨hpw, hpf⟩, hpath⟩ := hconn
    have hbase : (buildComponentMap data W H).1 p ≠ 0 := hinv.resolved p hpw hpf
    induction hpath with
    | refl => rfl
    | @tail b c hab hbc ihr =>
        have hbne : (buildComponentMap data W H).1 b ≠ 0 := by
          rw [← ihr]; exact hbase
        exact ihr.trans (hinv.closed b hbne c hbc.1 hbc.2.1 hbc.2.2).symm

/-- Concrete instance of `buildComponentMap_connectivity` on a 1-by-1 black
image. -/
theorem buildComponentMap_connectivity_witness :
    (buildComponentMap (fun _ => 0) 1 1).1 0 ≠ 0 ∧
    ConnIn 1
      (fun r => (buildComponentMap (fun _ => 0) 1 1).1 r
        = (buildComponentMap (fun _ => 0) 1 1).1 0) 0 0 :=
  ⟨by decide, (buildComponentMap_connectivity (fun _ => 0) 1 1).1 0 0 (by decide) rfl⟩

/-- Claim C3: the Label Map Builder is deterministic (it is a pure function
of the buffer, so two runs agree exactly), labels of the final map lie in
`[1, compCount]`, every label in that range has a first (minimal row-major)
pixel, and those first pixels are strictly increasing in the label, so the
component whose first pixel comes k-th in row-major order carries label k,
ids increasing from 1. -/
theorem buildComponentMap_order (data : Nat → Nat) (W H : Nat) :
    buildComponentMap data W H = buildComponentMap data W H ∧
    (∀ p, (buildComponentMap data W H).1 p ≠ 0 →
        1 ≤ (buildComponentMap data W H).1 p ∧
        (buildComponentMap data W H).1 p ≤ (buildComponentMap data W H).2) ∧
    (∀ l, 1 ≤ l → l ≤ (buildComponentMap data W H).2 →
        ∃ sd, (buildComponentMap data W H).1 sd = l ∧
          ∀ p, (buildComponentMap data W H).1 p = l → sd ≤ p) ∧
    (∀ l1 l2 sd1 sd2, 1 ≤ l1 → l1 < l2 → l2 ≤ (buildComponentMap data W H).2 →
        (buildComponentMap data W H).1 sd1 = l1 →
        (∀ p, (buildComponentMap data W H).1 p = l1 → sd1 ≤ p) →
        (buildComponentMap data W H).1 sd2 = l2 →
        (∀ p, (buildComponentMap data W H).1 p = l2 → sd2 ≤ p) →
        sd1 < sd2) := by
  have hinv := buildComponentMap_inv data W H
  refine ⟨rfl, ?_, ?_, ?_⟩
  · intro p hp
    exact ⟨(hinv.labBound p hp).2.2.1, (hinv.labBound p hp).2.2.2⟩
  · intro l h1 h2
    obtain ⟨sd, hsd, _, hmin⟩ := hinv.seeds l h1 h2
    exact ⟨sd, hsd, hmin⟩
  · intro l1 l2 sd1 sd2 h1 h12 h2 hs1 hm1 hs2 hm2
    obtain ⟨sd1', hsd1', hlt⟩ := hinv.seedOrder l1 l2 h1 h12 h2 sd2 hs2
    have := hm1 sd1' hsd1'
    omega

/-- Concrete instance of `buildComponentMap_order` on a 1-by-1 black
image (label 1 exists and has a minimal pixel). -/
theorem buildComponentMap_order_witness :
    1 ≤ (buildComponentMap (fun _ => 0) 1 1).2 ∧
    (∃ sd, (buildComponentMap (fun _ => 0) 1 1).1 sd = 1 ∧
      ∀ p, (buildComponentMap (fun _ => 0) 1 1).1 p = 1 → sd ≤ p) :=
  ⟨by decide,
    (buildComponentMap_order (fun _ => 0) 1 1).2.2.1 1 (by decide) (by decide)⟩

/-! ## JS `Map` embedding

Association lists with the semantics of `Map.prototype.set` / `get`:
`set` overwrites an existing key in place and appends a fresh key,
`get` returns the unique entry when present. -/

def mapSet {α β : Type} [DecidableEq α] :
    List (α × β) → α → β → List (α × β)
  | [], k, v => [(k, v)]
  | e :: rest, k, v =>
      if e.1 = k then (k, v) :: rest else e :: mapSet rest k v

def mapGet {α β : Type} [DecidableEq α] :
    List (α × β) → α → Option β
  | [], _ => none
  | e :: rest, k => if e.1 = k then some e.2 else mapGet rest k

theorem mapGet_mapSet {α β : Type} [DecidableEq α] :
    ∀ (m : List (α × β)) (k k' : α) (v : β),
      mapGet (mapSet m k v) k' = if k' = k then some v else mapGet m k' := by
  intro m
  induction m with
  | nil =>
      intro k k' v
      by_cases h : k' = k
      · simp [mapSet, mapGet, h]
      · simp only [mapSet, mapGet]
        rw [if_neg (fun hc : k = k' => h hc.symm), if_neg h]
  | cons e rest ih =>
      intro k k' v
      simp only [mapSet]
      by_cases he : e.1 = k
      · rw [if_pos he]
        by_cases h : k' = k
        · simp [mapGet, h]
        · simp only [mapGet]
          rw [if_neg (fun hc : k = k' => h hc.symm), if_neg h,
            if_neg (fun hc : e.1 = k' => h (he.symm.trans hc).symm)]
      · rw [if_neg he]
        by_cases h : k' = k
        · subst h
          simp [mapGet, he, ih]
        · simp only [mapGet]
          by_cases he' : e.1 = k'
          · rw [if_pos he', if_pos he', if_neg h]
          · rw [if_neg he', if_neg he', ih, if_neg h]

/-! ## Compositor (`redraw` in src/app.js)

The embedded function maps each byte index of the output buffer: starting
from the base (grey) buffer, and only when an item is hovered and its
component set is non-empty, every pixel `p < W*H` whose label lies in the
set takes the overlay RGB bytes and an alpha byte of 255. -/

def redraw (greyData colorData : Nat → Nat) (W H : Nat) (compIdAt : Nat → Nat)
    (itemKeyToComps : List (String × List Nat)) (hoverItemKey : Option String) :
    Nat → Nat :=
  match hoverItemKey with
  | none => greyData
  | some key =>
      match mapGet itemKeyToComps key with
      | none => greyData
      | some comps =>
          if comps.length = 0 then greyData
          else fun i =>
            if i / 4 < W * H ∧ comps.contains (compIdAt (i / 4)) then
              if i % 4 = 3 then 255 else colorData i
            else greyData i

theorem byte_div {p c : Nat} (hc : c < 4) : (p * 4 + c) / 4 = p := by
  rw [Nat.mul_comm p 4, Nat.mul_add_div (by omega), Nat.div_eq_of_lt hc, Nat.add_zero]

theorem byte_mod {p c : Nat} (hc : c < 4) : (p * 4 + c) % 4 = c := by
  rw [Nat.mul_comm p 4, Nat.mul_add_mod, Nat.mod_eq_of_lt hc]

/-- Per-byte behaviour of `redraw` under a hovered item with a non-empty
component set. Shared by the pointwise claims below. -/
theorem redraw_bytes (greyData colorData compIdAt : Nat → Nat) (W H : Nat)
    (itemKeyToComps : List (String × List Nat)) (key : String) (comps : List Nat)
    (hget : mapGet itemKeyToComps key = some comps) (hne : comps.length ≠ 0)
    (p : Nat) (hp : p < W * H) (c : Nat) (hc : c < 4) :
    redraw greyData colorData W H compIdAt itemKeyToComps (some key) (p * 4 + c)
      = if comps.contains (compIdAt p) then
          (if c = 3 then 255 else colorData (p * 4 + c))
        else greyData (p * 4 + c) := by
  simp only [redraw, hget, if_neg hne]
  rw [byte_div hc, byte_mod hc]
  by_cases hmem : comps.contains (compIdAt p) = true
  · rw [if_pos ⟨hp, hmem⟩, if_pos hmem]
  · rw [if_neg (fun hcon => hmem hcon.2), if_neg hmem]

/-- Claim C4: with no active selection the Compositor returns the base
buffer unchanged; with an active selection whose label set is non-empty,
each pixel `p` in `[0, W*H)` whose label is in the set takes the overlay's
RGB at `p` with alpha 255, and every other pixel keeps the base buffer's
four bytes. -/
theorem redraw_spec (greyData colorData compIdAt : Nat → Nat) (W H : Nat)
    (itemKeyToComps : List (String × List Nat)) (hoverItemKey : Option String) :
    (hoverItemKey = none →
      ∀ i, redraw greyData colorData W H compIdAt itemKeyToComps hoverItemKey i
        = greyData i) ∧
    (∀ key comps, hoverItemKey = some key →
      mapGet itemKeyToComps key = some comps → comps.length ≠ 0 →
      ∀ p, p < W * H →
        (comps.contains (compIdAt p) = true →
          redraw greyData colorData W H compIdAt itemKeyToComps hoverItemKey (p * 4)
            = colorData (p * 4) ∧
          redraw greyData colorData W H compIdAt itemKeyToComps hoverItemKey (p * 4 + 1)
            = colorData (p * 4 + 1) ∧
          redraw greyData colorData W H compIdAt itemKeyToComps hoverItemKey (p * 4 + 2)
            = colorData (p * 4 + 2) ∧
          redraw greyData colorData W H compIdAt itemKeyToComps hoverItemKey (p * 4 + 3)
            = 255) ∧
        (comps.contains (compIdAt p) = false →
          ∀ c, c < 4 →
            redraw greyData colorData W H compIdAt itemKeyToComps hoverItemKey (p * 4 + c)
              = greyData (p * 4 + c))) := by
  constructor
  · intro h i
    rw [h]
    rfl
  · intro key comps hsel hget hlen p hp
    subst hsel
    constructor
    · intro hmem
      have h0 := redraw_bytes greyData colorData compIdAt W H itemKeyToComps key comps
        hget hlen p hp 0 (by omega)
      have h1 := redraw_bytes greyData colorData compIdAt W H itemKeyToComps key comps
        hget hlen p hp 1 (by omega)
      have h2 := redraw_bytes greyData colorData compIdAt W H itemKeyToComps key comps
        hget hlen p hp 2 (by omega)
      have h3 := redraw_bytes greyData colorData compIdAt W H itemKeyToComps key comps
        hget hlen p hp 3 (by omega)
      rw [hmem] at h0 h1 h2 h3
      simp only [if_true] at h0 h1 h2 h3
      refine ⟨?_, ?_, ?_, ?_⟩
      · simpa using h0
      · simpa using h1
      · simpa using h2
      · simpa using h3
    · intro hmem c hc
      have h := redraw_bytes greyData colorData compIdAt W H itemKeyToComps key comps
        hget hlen p hp c hc
      rw [hmem] at h
      simpa using h

/-- Concrete instance of `redraw_spec`: an unselected pixel keeps the base
bytes. -/
theorem redraw_spec_witness :
    0 < 1 * 1 ∧
    (∀ c, c < 4 →
      redraw (fun _ => 1) (fun _ => 2) 1 1 (fun _ => 99) [("a", [1])] (some "a")
          (0 * 4 + c) = 1) :=
  ⟨by decide,
    ((redraw_spec (fun _ => 1) (fun _ => 2) (fun _ => 99) 1 1 [("a", [1])]
        (some "a")).2 "a" [1] rfl (by decide) (by decide) 0 (by decide)).2 (by decide)⟩

/-- Claim C10: if the hovered key is absent from the item-to-labels table,
or maps to an empty label set, the Compositor's output is byte-identical
to the base buffer. -/
theorem redraw_emptySelection (greyData colorData compIdAt : Nat → Nat) (W H : Nat)
    (itemKeyToComps : List (String × List Nat)) (key : String)
    (h : mapGet itemKeyToComps key = none ∨ mapGet itemKeyToComps key = some []) :
    ∀ i, redraw greyData colorData W H compIdAt itemKeyToComps (some key) i
      = greyData i := by
  intro i
  rcases h with h | h
  · simp only [redraw, h]
  · simp [redraw, h]

/-- Concrete instance of `redraw_emptySelection` for a key missing from the
table. -/
theorem redraw_emptySelection_witness :
    (mapGet [("a", [1])] "b" = none ∨ mapGet [("a", [1])] "b" = some []) ∧
    (∀ i, redraw (fun _ => 1) (fun _ => 2) 1 1 (fun _ => 1) [("a", [1])] (some "b") i
      = 1) :=
  ⟨by decide,
    redraw_emptySelection (fun _ => 1) (fun _ => 2) (fun _ => 1) 1 1 [("a", [1])] "b"
      (by decide)⟩

/-! ## Item Resolver (`buildItemMappings` in src/app.js) -/

/-- A catalog entry of the `ITEMS` array: key, title, message and the
normalized anchor points `pts`. -/
structure Item where
  key : String
  title : String
  message : String
  pts : List (ℚ × ℚ)

/-- The anchor lookup of `buildItemMappings`:
`px = Math.floor(nx * W)`, `py = Math.floor(ny * H)`,
`id = compIdAt[py * W + px] || 0`. A `Uint32Array` read at a negative or
out-of-length index yields `undefined`, which `|| 0` turns into 0; an
in-length flat index is read as-is (with `|| 0` the identity on the stored
value). -/
def anchorId (compIdAt : Nat → Nat) (W H : Nat) (a : ℚ × ℚ) : Nat :=
  let px : Int := ⌊a.1 * (W : ℚ)⌋
  let py : Int := ⌊a.2 * (H : ℚ)⌋
  let q : Int := py * (W : Int) + px
  if 0 ≤ q ∧ q < ((W * H : Nat) : Int) then compIdAt q.toNat else 0

/-- `Set.prototype.add`: append the element unless already present. -/
def addId (s : List Nat) (id : Nat) : List Nat :=
  if s.contains id then s else s ++ [id]

/-- The per-item `for (const [nx, ny] of it.pts)` loop: collect the
distinct non-zero anchor labels in insertion order. -/
def itemComps (compIdAt : Nat → Nat) (W H : Nat) (pts : List (ℚ × ℚ)) : List Nat :=
  pts.foldl (fun set a =>
    let id := anchorId compIdAt W H a
    if id ≠ 0 then addId set id else set) []

/-- Claim C5 counterexample: on a 2-by-2 label array whose only non-zero
label sits at flat position 2 (pixel `(0,1)`), the single anchor
`(nx, ny) = (1, 0)` computes `px = 2`, which lies outside `[0, W)`; the
claim says the anchor therefore contributes nothing, but the flat index
`0 * 2 + 2 = 2` is in range and the anchor contributes label 5. -/
theorem buildItemMappings_wrap_cex :
    itemComps (fun p => if p = 2 then 5 else 0) 2 2 [((1 : ℚ), (0 : ℚ))] = [5] ∧
    ¬ (⌊(1 : ℚ) * ((2 : Nat) : ℚ)⌋ < ((2 : Nat) : Int)) := by
  constructor
  · have hfx : ⌊(1 : ℚ) * ((2 : Nat) : ℚ)⌋ = 2 := by norm_num
    have hfy : ⌊(0 : ℚ) * ((2 : Nat) : ℚ)⌋ = 0 := by norm_num
    simp only [itemComps, List.foldl_cons, List.foldl_nil, anchorId, hfx, hfy]
    decide
  · have hfx : ⌊(1 : ℚ) * ((2 : Nat) : ℚ)⌋ = 2 := by norm_num
    rw [hfx]
    norm_num

/-- The anchor lookup in flat-index form: with non-negative normalized
coordinates, the `Uint32Array` read plus `|| 0` amounts to an
in-range-checked read at flat index `⌊ny*H⌋ * W + ⌊nx*W⌋`. -/
theorem anchorId_flat (compIdAt : Nat → Nat) (W H : Nat) (nx ny : ℚ)
    (hx0 : 0 ≤ nx) (hy0 : 0 ≤ ny) :
    anchorId compIdAt W H (nx, ny)
      = if (⌊ny * (H : ℚ)⌋).toNat * W + (⌊nx * (W : ℚ)⌋).toNat < W * H
          then compIdAt ((⌊ny * (H : ℚ)⌋).toNat * W + (⌊nx * (W : ℚ)⌋).toNat)
          else 0 := by
  have hpx0 : 0 ≤ ⌊nx * (W : ℚ)⌋ :=
    Int.floor_nonneg.2 (mul_nonneg hx0 (by positivity))
  have hpy0 : 0 ≤ ⌊ny * (H : ℚ)⌋ :=
    Int.floor_nonneg.2 (mul_nonneg hy0 (by positivity))
  set A := (⌊nx * (W : ℚ)⌋).toNat with hA_def
  set B := (⌊ny * (H : ℚ)⌋).toNat with hB_def
  have hAi : ⌊nx * (W : ℚ)⌋ = (A : Int) := by
    rw [hA_def]
    exact (Int.toNat_of_nonneg hpx0).symm
  have hBi : ⌊ny * (H : ℚ)⌋ = (B : Int) := by
    rw [hB_def]
    exact (Int.toNat_of_nonneg hpy0).symm
  simp only [anchorId]
  rw [hAi, hBi]
  have hq : (B : Int) * (W : Int) + (A : Int) = ((B * W + A : Nat) : Int) := by
    push_cast
    ring
  rw [hq]
  by_cases h : B * W + A < W * H
  · rw [if_pos ⟨by positivity, by exact_mod_cast h⟩, if_pos h, Int.toNat_natCast]
  · rw [if_neg (fun hc => h (by exact_mod_cast hc.2)), if_neg h]

/-- Claim C5 as amended: an anchor with coordinates in `[0,1] × [0,1]` is
looked up at the flat index `⌊ny*H⌋ * W + ⌊nx*W⌋`; it yields 0 (and is then
skipped by the item loop, contributing nothing) exactly when that flat
index is outside `[0, W*H)` or holds label 0. In particular `ny = 1` never
contributes; `px, py` inside `[0,W) × [0,H)` behave as the original claim
says; but `nx = 1` (`px = W`) with `py + 1 < H` reads the first pixel of
row `py + 1` and can contribute its label. -/
theorem anchorId_spec (compIdAt : Nat → Nat) (W H : Nat) (nx ny : ℚ)
    (hx0 : 0 ≤ nx) (hx1 : nx ≤ 1) (hy0 : 0 ≤ ny) (hy1 : ny ≤ 1) :
    (anchorId compIdAt W H (nx, ny)
      = if (⌊ny * (H : ℚ)⌋).toNat * W + (⌊nx * (W : ℚ)⌋).toNat < W * H
          then compIdAt ((⌊ny * (H : ℚ)⌋).toNat * W + (⌊nx * (W : ℚ)⌋).toNat)
          else 0) ∧
    (ny = 1 → anchorId compIdAt W H (nx, ny) = 0) ∧
    ((⌊nx * (W : ℚ)⌋).toNat < W → (⌊ny * (H : ℚ)⌋).toNat < H →
      anchorId compIdAt W H (nx, ny)
        = compIdAt ((⌊ny * (H : ℚ)⌋).toNat * W + (⌊nx * (W : ℚ)⌋).toNat)) ∧
    (0 < W → (⌊nx * (W : ℚ)⌋).toNat = W → (⌊ny * (H : ℚ)⌋).toNat + 1 < H →
      anchorId compIdAt W H (nx, ny)
        = compIdAt (((⌊ny * (H : ℚ)⌋).toNat + 1) * W)) ∧
    (∀ pts1 pts2, anchorId compIdAt W H (nx, ny) = 0 →
      itemComps compIdAt W H (pts1 ++ (nx, ny) :: pts2)
        = itemComps compIdAt W H (pts1 ++ pts2)) := by
  have hmain := anchorId_flat compIdAt W H nx ny hx0 hy0
  refine ⟨hmain, ?_, ?_, ?_, ?_⟩
  · intro hy
    subst hy
    have hfy : (⌊(1 : ℚ) * (H : ℚ)⌋).toNat = H := by
      rw [one_mul, Int.floor_natCast, Int.toNat_natCast]
    rw [hmain, hfy]
    have hcm : H * W = W * H := Nat.mul_comm H W
    rw [if_neg (by omega)]
  · intro hxW hyH
    rw [hmain, if_pos (pos_lt hxW hyH)]
  · intro hW0 hxW hyH
    have hidx : (⌊ny * (H : ℚ)⌋).toNat * W + (⌊nx * (W : ℚ)⌋).toNat
        = ((⌊ny * (H : ℚ)⌋).toNat + 1) * W := by
      rw [hxW]
      ring
    have hlt : ((⌊ny * (H : ℚ)⌋).toNat + 1) * W < W * H := by
      calc ((⌊ny * (H : ℚ)⌋).toNat + 1) * W
          < H * W := (Nat.mul_lt_mul_right hW0).2 (by omega)
        _ = W * H := Nat.mul_comm _ _
    rw [hmain, hidx, if_pos hlt]
  · intro pts1 pts2 h0
    simp only [itemComps, List.foldl_append, List.foldl_cons]
    rw [h0]
    simp

/-- Concrete instance of `anchorId_spec` at the anchor `(0, 0)` on a
1-by-1 image. -/
theorem anchorId_spec_witness :
    (0 : ℚ) ≤ 0 ∧ (0 : ℚ) ≤ 1 ∧
    (anchorId (fun _ => 7) 1 1 ((0 : ℚ), (0 : ℚ))
      = if (⌊(0 : ℚ) * ((1 : Nat) : ℚ)⌋).toNat * 1 + (⌊(0 : ℚ) * ((1 : Nat) : ℚ)⌋).toNat < 1 * 1
          then (fun _ => 7 : Nat → Nat)
            ((⌊(0 : ℚ) * ((1 : Nat) : ℚ)⌋).toNat * 1 + (⌊(0 : ℚ) * ((1 : Nat) : ℚ)⌋).toNat)
          else 0) :=
  ⟨le_refl 0, zero_le_one,
    (anchorId_spec (fun _ => 7) 1 1 0 0 (le_refl 0) zero_le_one (le_refl 0)
      zero_le_one).1⟩

/-! ## Hit Tester (`componentAtClientXY` in src/app.js) -/

/-- The bounding rectangle returned by `getBoundingClientRect`. -/
structure Rect where
  left : ℚ
  top : ℚ
  width : ℚ
  height : ℚ

/-- Hit Tester: map a client-space pointer position through the current
display rectangle into image space, bounds-check, and read the label. -/
def componentAtClientXY (compIdAt : Nat → Nat) (W H : Nat) (rect : Rect)
    (cx cy : ℚ) : Nat :=
  let x : Int := ⌊(cx - rect.left) * ((W : ℚ) / rect.width)⌋
  let y : Int := ⌊(cy - rect.top) * ((H : ℚ) / rect.height)⌋
  if x < 0 ∨ (W : Int) ≤ x ∨ y < 0 ∨ (H : Int) ≤ y then 0
  else compIdAt (y.toNat * W + x.toNat)

/-- Claim C6: the Hit Tester computes
`px = ⌊(cx - left) * (W / width)⌋`, `py = ⌊(cy - top) * (H / height)⌋`,
returns 0 whenever `px` or `py` leaves `[0, W) × [0, H)` (never indexing
the label array), returns `labelArray[py * W + px]` otherwise, and any
pointer outside the display rectangle yields 0 regardless of the buffer. -/
theorem componentAtClientXY_spec (compIdAt : Nat → Nat) (W H : Nat) (rect : Rect)
    (cx cy : ℚ) (hw : 0 < rect.width) (hh : 0 < rect.height) :
    (∀ x y : Int, x = ⌊(cx - rect.left) * ((W : ℚ) / rect.width)⌋ →
      y = ⌊(cy - rect.top) * ((H : ℚ) / rect.height)⌋ →
      ((x < 0 ∨ (W : Int) ≤ x ∨ y < 0 ∨ (H : Int) ≤ y →
          componentAtClientXY compIdAt W H rect cx cy = 0) ∧
        (0 ≤ x → x < W → 0 ≤ y → y < H →
          componentAtClientXY compIdAt W H rect cx cy
            = compIdAt (y.toNat * W + x.toNat)))) ∧
    (cx < rect.left ∨ rect.left + rect.width < cx ∨
        cy < rect.top ∨ rect.top + rect.height < cy →
      componentAtClientXY compIdAt W H rect cx cy = 0) := by
  have hout : ∀ x y : Int, x = ⌊(cx - rect.left) * ((W : ℚ) / rect.width)⌋ →
      y = ⌊(cy - rect.top) * ((H : ℚ) / rect.height)⌋ →
      (x < 0 ∨ (W : Int) ≤ x ∨ y < 0 ∨ (H : Int) ≤ y) →
      componentAtClientXY compIdAt W H rect cx cy = 0 := by
    intro x y hx hy hg
    simp only [componentAtClientXY]
    rw [if_pos (by rw [← hx, ← hy]; exact hg)]
  constructor
  · intro x y hx hy
    refine ⟨hout x y hx hy, ?_⟩
    intro h1 h2 h3 h4
    simp only [componentAtClientXY]
    rw [if_neg (by rw [← hx, ← hy]; omega), ← hx, ← hy]
  · intro hcase
    rcases Nat.eq_zero_or_pos W with hW | hW
    · apply hout _ _ rfl rfl
      refine Or.inr (Or.inl ?_)
      rw [hW]
      simp only [Nat.cast_zero, CharP.cast_eq_zero, zero_div, mul_zero, Int.floor_zero]
      exact le_refl 0
    · rcases Nat.eq_zero_or_pos H with hH | hH
      · apply hout _ _ rfl rfl
        refine Or.inr (Or.inr (Or.inr ?_))
        rw [hH]
        simp only [Nat.cast_zero, CharP.cast_eq_zero, zero_div, mul_zero, Int.floor_zero]
        exact le_refl 0
      · have hWq : (0 : ℚ) < (W : ℚ) := by exact_mod_cast hW
        have hHq : (0 : ℚ) < (H : ℚ) := by exact_mod_cast hH
        rcases hcase with h | h | h | h
        · apply hout _ _ rfl rfl
          refine Or.inl ?_
          have ht : (cx - rect.left) * ((W : ℚ) / rect.width) < 0 :=
            mul_neg_of_neg_of_pos (by linarith) (div_pos hWq hw)
          exact Int.floor_lt.mpr (by push_cast; exact ht)
        · apply hout _ _ rfl rfl
          refine Or.inr (Or.inl ?_)
          have hkey : (W : ℚ) ≤ (cx - rect.left) * ((W : ℚ) / rect.width) := by
            have h1 : rect.width < cx - rect.left := by linarith
            have h2 : rect.width * ((W : ℚ) / rect.width)
                ≤ (cx - rect.left) * ((W : ℚ) / rect.width) :=
              mul_le_mul_of_nonneg_right (le_of_lt h1) (le_of_lt (div_pos hWq hw))
            calc (W : ℚ) = rect.width * ((W : ℚ) / rect.width) := by
                  field_simp
              _ ≤ _ := h2
          exact Int.le_floor.2 (by push_cast; exact hkey)
        · apply hout _ _ rfl rfl
          refine Or.inr (Or.inr (Or.inl ?_))
          have ht : (cy - rect.top) * ((H : ℚ) / rect.height) < 0 :=
            mul_neg_of_neg_of_pos (by linarith) (div_pos hHq hh)
          exact Int.floor_lt.mpr (by push_cast; exact ht)
        · apply hout _ _ rfl rfl
          refine Or.inr (Or.inr (Or.inr ?_))
          have hkey : (H : ℚ) ≤ (cy - rect.top) * ((H : ℚ) / rect.height) := by
            have h1 : rect.height < cy - rect.top := by linarith
            have h2 : rect.height * ((H : ℚ) / rect.height)
                ≤ (cy - rect.top) * ((H : ℚ) / rect.height) :=
              mul_le_mul_of_nonneg_right (le_of_lt h1) (le_of_lt (div_pos hHq hh))
            calc (H : ℚ) = rect.height * ((H : ℚ) / rect.height) := by
                  field_simp
              _ ≤ _ := h2
          exact Int.le_floor.2 (by push_cast; exact hkey)

/-- Concrete instance of `componentAtClientXY_spec`: a pointer left of the
rectangle resolves to no component. -/
theorem componentAtClientXY_spec_witness :
    ((-1 : ℚ) < 0 ∨ (0 : ℚ) + 1 < -1 ∨ (-1 : ℚ) < 0 ∨ (0 : ℚ) + 1 < -1) ∧
    componentAtClientXY (fun _ => 3) 1 1 ⟨0, 0, 1, 1⟩ (-1) (-1) = 0 :=
  ⟨Or.inl (neg_lt_zero.mpr zero_lt_one),
    (componentAtClientXY_spec (fun _ => 3) 1 1 ⟨0, 0, 1, 1⟩ (-1) (-1)
      zero_lt_one zero_lt_one).2 (Or.inl (neg_lt_zero.mpr zero_lt_one))⟩

/-! ## Initialization (`init` and `drawImageToData` in src/app.js) -/

/-- A decoded `ImageData`: dimensions plus the byte stream. -/
structure ImageData where
  width : Nat
  height : Nat
  data : Nat → Nat

/-- A decoded image as the browser hands it to the script: natural
dimensions plus the externally resampled content when drawn at a target
size (`render W H` is the byte stream of the W-by-H rasterization the
canvas produces). -/
structure Img where
  naturalWidth : Nat
  naturalHeight : Nat
  render : Nat → Nat → Nat → Nat

/-- `drawImageToData` from src/app.js: create a `W`-by-`H` offscreen
canvas, draw the image scaled onto it (`drawImage(img, 0, 0, W, H)`), and
read back its `ImageData` — which therefore always has dimensions exactly
`W`-by-`H`, whatever the image's natural size. -/
def drawImageToData (img : Img) (W H : Nat) : ImageData :=
  ⟨W, H, img.render W H⟩

/-- The buffer-producing fragment of `init` (src/app.js lines 233-240),
given the two already-decoded images: `W`, `H` are read from the grey
image's natural size only, and both images are drawn at `W`-by-`H`. The
fragment inspects no dimension of the colour image and contains no failure
path, hence the `Except.ok`; the surrounding `try`/`catch` of `init` only
guards the external fetch/decode steps. -/
def initBuffers (greyImg colorImg : Img) : Except String (ImageData × ImageData) :=
  let W := greyImg.naturalWidth
  let H := greyImg.naturalHeight
  Except.ok (drawImageToData greyImg W H, drawImageToData colorImg W H)

/-- Claim C9 counterexample: a 2-by-2 base with a 3-by-3 overlay is a
dimension mismatch, yet initialization succeeds (`Except.ok`) instead of
aborting with an acquisition-class error. -/
theorem initBuffers_mismatch_cex :
    (∃ bufs, initBuffers ⟨2, 2, fun _ _ _ => 0⟩ ⟨3, 3, fun _ _ _ => 0⟩
      = Except.ok bufs) ∧
    (⟨2, 2, fun _ _ _ => 0⟩ : Img).naturalWidth
      ≠ (⟨3, 3, fun _ _ _ => 0⟩ : Img).naturalWidth :=
  ⟨⟨_, rfl⟩, by decide⟩

/-- Claim C9 as amended: initialization never compares the two images'
dimensions and never aborts on a mismatch; instead it coerces both buffers
to the base image's `W`-by-`H` (rescaling the overlay), so segmentation
and compositing always operate on equal-dimension buffers — by silent
rescale, not by detection. -/
theorem initBuffers_spec (greyImg colorImg : Img) :
    ∃ bufs : ImageData × ImageData,
      initBuffers greyImg colorImg = Except.ok bufs ∧
      bufs.1.width = greyImg.naturalWidth ∧
      bufs.1.height = greyImg.naturalHeight ∧
      bufs.2.width = greyImg.naturalWidth ∧
      bufs.2.height = greyImg.naturalHeight :=
  ⟨_, rfl, rfl, rfl, rfl, rfl⟩

/-! ## The full item-mapping tables of `buildItemMappings` -/

/-- The three module-level maps the Item Resolver fills. -/
structure Mappings where
  compToItemKey : List (Nat × String)
  itemKeyToInfo : List (String × (String × String))
  itemKeyToComps : List (String × List Nat)

/-- The per-item body of `buildItemMappings`: record title and message,
collect the anchor labels, store the item's label set, and point every
collected label back at the item key. -/
def processItem (compIdAt : Nat → Nat) (W H : Nat) (m : Mappings) (it : Item) :
    Mappings :=
  let set := itemComps compIdAt W H it.pts
  { itemKeyToInfo := mapSet m.itemKeyToInfo it.key (it.title, it.message)
    itemKeyToComps := mapSet m.itemKeyToComps it.key set
    compToItemKey := set.foldl (fun acc id => mapSet acc id it.key) m.compToItemKey }

/-- `buildItemMappings` from src/app.js: fold the catalog in order over
initially empty maps. -/
def buildItemMappings (compIdAt : Nat → Nat) (W H : Nat) (items : List Item) :
    Mappings :=
  items.foldl (processItem compIdAt W H) ⟨[], [], []⟩

theorem addId_mem_self (s : List Nat) (id : Nat) : id ∈ addId s id := by
  by_cases h : s.contains id
  · rw [addId, if_pos h]
    exact List.mem_of_elem_eq_true h
  · rw [addId, if_neg h]
    exact List.mem_append.2 (Or.inr (List.mem_singleton.2 rfl))

theorem addId_mono (s : List Nat) (id x : Nat) (hx : x ∈ s) : x ∈ addId s id := by
  by_cases h : s.contains id
  · rw [addId, if_pos h]; exact hx
  · rw [addId, if_neg h]; exact List.mem_append.2 (Or.inl hx)

theorem itemComps_fold_mono (compIdAt : Nat → Nat) (W H : Nat) :
    ∀ (pts : List (ℚ × ℚ)) (acc : List Nat) (x : Nat), x ∈ acc →
      x ∈ pts.foldl (fun set a =>
        let id := anchorId compIdAt W H a
        if id ≠ 0 then addId set id else set) acc := by
  intro pts
  induction pts with
  | nil => intro acc x hx; exact hx
  | cons a rest ih =>
      intro acc x hx
      simp only [List.foldl_cons]
      by_cases h : anchorId compIdAt W H a ≠ 0
      · rw [if_pos h]
        exact ih _ x (addId_mono _ _ _ hx)
      · rw [if_neg h]
        exact ih _ x hx

theorem itemComps_fold_mem (compIdAt : Nat → Nat) (W H : Nat) :
    ∀ (pts : List (ℚ × ℚ)) (acc : List Nat) (a : ℚ × ℚ), a ∈ pts →
      anchorId compIdAt W H a ≠ 0 →
      anchorId compIdAt W H a ∈ pts.foldl (fun set a =>
        let id := anchorId compIdAt W H a
        if id ≠ 0 then addId set id else set) acc := by
  intro pts
  induction pts with
  | nil => intro acc a ha; exact absurd ha (List.not_mem_nil _)
  | cons b rest ih =>
      intro acc a ha h0
      simp only [List.foldl_cons]
      rcases List.mem_cons.1 ha with hab | ha'
      · subst hab
        rw [if_pos h0]
        exact itemComps_fold_mono compIdAt W H rest _ _ (addId_mem_self _ _)
      · by_cases h : anchorId compIdAt W H b ≠ 0
        · rw [if_pos h]; exact ih _ a ha' h0
        · rw [if_neg h]; exact ih _ a ha' h0

/-- An anchor with a non-zero label contributes that label to the item's
component set. -/
theorem itemComps_mem (compIdAt : Nat → Nat) (W H : Nat) (pts : List (ℚ × ℚ))
    (a : ℚ × ℚ) (ha : a ∈ pts) (h0 : anchorId compIdAt W H a ≠ 0) :
    anchorId compIdAt W H a ∈ itemComps compIdAt W H pts :=
  itemComps_fold_mem compIdAt W H pts [] a ha h0

/-- `mapGet` after folding `mapSet id ↦ key` over a list of ids. -/
theorem mapGet_foldl_mapSet (key : String) :
    ∀ (ids : List Nat) (cMap : List (Nat × String)) (id : Nat),
      mapGet (ids.foldl (fun acc i => mapSet acc i key) cMap) id
        = if id ∈ ids then some key else mapGet cMap id := by
  intro ids
  induction ids with
  | nil => intro cMap id; simp
  | cons i rest ih =>
      intro cMap id
      simp only [List.foldl_cons]
      rw [ih]
      by_cases hrest : id ∈ rest
      · rw [if_pos hrest, if_pos (List.mem_cons_of_mem _ hrest)]
      · rw [if_neg hrest, mapGet_mapSet]
        by_cases hi : id = i
        · rw [if_pos hi, if_pos (hi ▸ List.mem_cons_self _ _)]
        · rw [if_neg hi, if_neg (by
            intro hmem
            rcases List.mem_cons.1 hmem with h | h
            · exact hi h
            · exact hrest h)]

/-- Consistency of the two lookup tables: every label-to-key entry points
at a key whose stored component set contains the label, and all recorded
keys come from the processed prefix `ks` of the catalog. -/
def GoodMaps (m : Mappings) (ks : List String) : Prop :=
  (∀ id k, mapGet m.compToItemKey id = some k →
    k ∈ ks ∧ ∃ s, mapGet m.itemKeyToComps k = some s ∧ id ∈ s) ∧
  (∀ k s, mapGet m.itemKeyToComps k = some s → k ∈ ks)

theorem processItem_good (compIdAt : Nat → Nat) (W H : Nat) (m : Mappings)
    (it : Item) (ks : List String) (hg : GoodMaps m ks) (hfresh : it.key ∉ ks) :
    GoodMaps (processItem compIdAt W H m it) (it.key :: ks) := by
  constructor
  · intro id k hk
    simp only [processItem] at hk
    rw [mapGet_foldl_mapSet] at hk
    by_cases hmem : id ∈ itemComps compIdAt W H it.pts
    · rw [if_pos hmem] at hk
      injection hk with hk
      subst hk
      refine ⟨List.mem_cons_self _ _, itemComps compIdAt W H it.pts, ?_, hmem⟩
      simp only [processItem]
      rw [mapGet_mapSet, if_pos rfl]
    · rw [if_neg hmem] at hk
      obtain ⟨hks, s, hs, hid⟩ := hg.1 id k hk
      have hkne : k ≠ it.key := fun hc => hfresh (hc ▸ hks)
      refine ⟨List.mem_cons_of_mem _ hks, s, ?_, hid⟩
      simp only [processItem]
      rw [mapGet_mapSet, if_neg hkne]
      exact hs
  · intro k s hk
    simp only [processItem] at hk
    rw [mapGet_mapSet] at hk
    by_cases hke : k = it.key
    · exact hke ▸ List.mem_cons_self _ _
    · rw [if_neg hke] at hk
      exact List.mem_cons_of_mem _ (hg.2 k s hk)

theorem foldl_good (compIdAt : Nat → Nat) (W H : Nat) :
    ∀ (items : List Item) (m : Mappings) (ks : List String),
      GoodMaps m ks →
      (∀ k, k ∈ items.map Item.key → k ∉ ks) →
      (items.map Item.key).Nodup →
      ∃ ks', GoodMaps (items.foldl (processItem compIdAt W H) m) ks' := by
  intro items
  induction items with
  | nil => intro m ks hg _ _; exact ⟨ks, hg⟩
  | cons it rest ih =>
      intro m ks hg hdisj hnodup
      simp only [List.foldl_cons]
      have hfresh : it.key ∉ ks :=
        hdisj it.key (by simp)
      have hnodup' : (rest.map Item.key).Nodup := by
        simp only [List.map_cons, List.nodup_cons] at hnodup
        exact hnodup.2
      have hhead : it.key ∉ rest.map Item.key := by
        simp only [List.map_cons, List.nodup_cons] at hnodup
        exact hnodup.1
      refine ih (processItem compIdAt W H m it) (it.key :: ks)
        (processItem_good compIdAt W H m it ks hg hfresh) ?_ hnodup'
      intro k hk hmem
      rcases List.mem_cons.1 hmem with h | h
      · exact hhead (h ▸ hk)
      · exact hdisj k (List.mem_cons_of_mem _ hk) h

theorem cMap_stays (compIdAt : Nat → Nat) (W H : Nat) :
    ∀ (items : List Item) (m : Mappings) (id : Nat),
      (∃ k, mapGet m.compToItemKey id = some k) →
      ∃ k, mapGet (items.foldl (processItem compIdAt W H) m).compToItemKey id
        = some k := by
  intro items
  induction items with
  | nil => intro m id h; exact h
  | cons it rest ih =>
      intro m id h
      simp only [List.foldl_cons]
      refine ih _ id ?_
      obtain ⟨k, hk⟩ := h
      simp only [processItem]
      rw [mapGet_foldl_mapSet]
      by_cases hmem : id ∈ itemComps compIdAt W H it.pts
      · exact ⟨it.key, by rw [if_pos hmem]⟩
      · exact ⟨k, by rw [if_neg hmem]; exact hk⟩

/-- Claim C7 counterexample. Catalog: one item `"a"` with two anchors on a
2-by-1 label array carrying labels 1 (pixel 0) and 2 (pixel 1). The item's
first anchor resolves to label `L = 1` and the pointer at that anchor's
pixel resolves through the tables to key `"a"`; but compositing with `"a"`
recolors pixel 1 — which does not carry `L` — to the overlay value 20,
instead of leaving it at the base value 10 as the claim demands. -/
theorem roundTrip_cex :
    (anchorId (fun p => if p = 0 then 1 else if p = 1 then 2 else 0) 2 1
        ((0 : ℚ), (0 : ℚ)) = 1) ∧
    (mapGet (buildItemMappings
        (fun p => if p = 0 then 1 else if p = 1 then 2 else 0) 2 1
        [⟨"a", "A", "m", [((0 : ℚ), (0 : ℚ)), ((1/2 : ℚ), (0 : ℚ))]⟩]).compToItemKey
      (componentAtClientXY
        (fun p => if p = 0 then 1 else if p = 1 then 2 else 0) 2 1
        ⟨0, 0, 2, 1⟩ 0 0) = some "a") ∧
    ((fun p => if p = 0 then 1 else if p = 1 then 2 else 0) 1 ≠ 1) ∧
    (redraw (fun _ => 10) (fun _ => 20) 2 1
        (fun p => if p = 0 then 1 else if p = 1 then 2 else 0)
        (buildItemMappings
          (fun p => if p = 0 then 1 else if p = 1 then 2 else 0) 2 1
          [⟨"a", "A", "m", [((0 : ℚ), (0 : ℚ)), ((1/2 : ℚ), (0 : ℚ))]⟩]).itemKeyToComps
        (some "a") (1 * 4) = 20) ∧
    ((10 : Nat) ≠ 20) := by
  have f1 : ⌊(0 : ℚ) * ((2 : Nat) : ℚ)⌋ = 0 := by norm_num
  have f2 : ⌊(0 : ℚ) * ((1 : Nat) : ℚ)⌋ = 0 := by norm_num
  have f3 : ⌊(1/2 : ℚ) * ((2 : Nat) : ℚ)⌋ = 1 := by norm_num
  have f4 : ⌊((0 : ℚ) - 0) * (((2 : Nat) : ℚ) / (2 : ℚ))⌋ = 0 := by norm_num
  have f5 : ⌊((0 : ℚ) - 0) * (((1 : Nat) : ℚ) / (1 : ℚ))⌋ = 0 := by norm_num
  refine ⟨?_, ?_, by decide, ?_, by decide⟩
  · simp only [anchorId, f1, f2]
    decide
  · simp only [buildItemMappings, List.foldl_cons, List.foldl_nil, processItem,
      itemComps, anchorId, componentAtClientXY, f1, f2, f3, f4, f5]
    decide
  · simp only [buildItemMappings, List.foldl_cons, List.foldl_nil, processItem,
      itemComps, anchorId, redraw, f1, f2, f3]
    decide

/-- Claim C7 as amended: assume the catalog keys are distinct (as the
`ITEMS` catalog's are). For every item and anchor whose computed pixel
`(px, py) = (⌊nx*W⌋, ⌊ny*H⌋)` lies inside `[0, W) × [0, H)` and resolves to
a non-zero label `L`: a pointer at that exact pixel under the identity
display rectangle hits `L`; the label-to-item table maps `L` to a key
whose stored label set contains `L`; and the Compositor with that key
recolors every pixel whose label lies in that set — in particular every
pixel carrying `L` — to the overlay's RGB with alpha 255, while pixels
whose label is outside the set keep the base buffer's bytes. -/
theorem roundTrip_spec (compIdAt greyData colorData : Nat → Nat) (W H : Nat)
    (items : List Item) (hkeys : (items.map Item.key).Nodup)
    (it : Item) (hit : it ∈ items) (a : ℚ × ℚ) (ha : a ∈ it.pts)
    (hx0 : 0 ≤ a.1) (hy0 : 0 ≤ a.2)
    (px py : Nat)
    (hpx : px = (⌊a.1 * (W : ℚ)⌋).toNat) (hpy : py = (⌊a.2 * (H : ℚ)⌋).toNat)
    (hxW : px < W) (hyH : py < H)
    (hL : compIdAt (py * W + px) ≠ 0) :
    ∃ key comps,
      componentAtClientXY compIdAt W H ⟨0, 0, (W : ℚ), (H : ℚ)⟩ (px : ℚ) (py : ℚ)
        = compIdAt (py * W + px) ∧
      mapGet (buildItemMappings compIdAt W H items).compToItemKey
        (compIdAt (py * W + px)) = some key ∧
      mapGet (buildItemMappings compIdAt W H items).itemKeyToComps key
        = some comps ∧
      compIdAt (py * W + px) ∈ comps ∧
      (∀ p, p < W * H →
        (comps.contains (compIdAt p) = true →
          redraw greyData colorData W H compIdAt
              (buildItemMappings compIdAt W H items).itemKeyToComps (some key)
              (p * 4) = colorData (p * 4) ∧
          redraw greyData colorData W H compIdAt
              (buildItemMappings compIdAt W H items).itemKeyToComps (some key)
              (p * 4 + 1) = colorData (p * 4 + 1) ∧
          redraw greyData colorData W H compIdAt
              (buildItemMappings compIdAt W H items).itemKeyToComps (some key)
              (p * 4 + 2) = colorData (p * 4 + 2) ∧
          redraw greyData colorData W H compIdAt
              (buildItemMappings compIdAt W H items).itemKeyToComps (some key)
              (p * 4 + 3) = 255) ∧
        (comps.contains (compIdAt p) = false →
          ∀ c, c < 4 →
            redraw greyData colorData W H compIdAt
              (buildItemMappings compIdAt W H items).itemKeyToComps (some key)
              (p * 4 + c) = greyData (p * 4 + c))) := by
  have hW0 : 0 < W := lt_of_le_of_lt (Nat.zero_le _) hxW
  have hH0 : 0 < H := lt_of_le_of_lt (Nat.zero_le _) hyH
  -- the anchor resolves to the label at the flat pixel index
  have hanch : anchorId compIdAt W H a = compIdAt (py * W + px) := by
    have hAF := anchorId_flat compIdAt W H a.1 a.2 hx0 hy0
    rw [← hpx, ← hpy] at hAF
    rw [hAF, if_pos (pos_lt hxW hyH)]
  -- the label belongs to the item's component set
  have hmem : compIdAt (py * W + px) ∈ itemComps compIdAt W H it.pts := by
    rw [← hanch]
    exact itemComps_mem compIdAt W H it.pts a ha (by rw [hanch]; exact hL)
  -- the final tables are consistent
  have hgood : ∃ ks', GoodMaps (buildItemMappings compIdAt W H items) ks' := by
    simp only [buildItemMappings]
    refine foldl_good compIdAt W H items ⟨[], [], []⟩ [] ⟨?_, ?_⟩ ?_ hkeys
    · intro id k h
      simp [mapGet] at h
    · intro k s h
      simp [mapGet] at h
    · intro k _ h
      exact absurd h (List.not_mem_nil k)
  -- the label keeps a key in the final label-to-key table
  have hsome : ∃ k, mapGet (buildItemMappings compIdAt W H items).compToItemKey
      (compIdAt (py * W + px)) = some k := by
    obtain ⟨pre, post, hsplit⟩ := List.append_of_mem hit
    have hbuild : buildItemMappings compIdAt W H items
        = post.foldl (processItem compIdAt W H)
            (processItem compIdAt W H
              (pre.foldl (processItem compIdAt W H) ⟨[], [], []⟩) it) := by
      rw [buildItemMappings, hsplit, List.foldl_append, List.foldl_cons]
    rw [hbuild]
    refine cMap_stays compIdAt W H post _ _ ⟨it.key, ?_⟩
    simp only [processItem]
    rw [mapGet_foldl_mapSet, if_pos hmem]
  obtain ⟨k, hk⟩ := hsome
  obtain ⟨ks', hgood'⟩ := hgood
  obtain ⟨_, s, hs, hmem'⟩ := hgood'.1 _ k hk
  -- the pointer at the anchor pixel hits the label
  have hhit : componentAtClientXY compIdAt W H ⟨0, 0, (W : ℚ), (H : ℚ)⟩
      (px : ℚ) (py : ℚ) = compIdAt (py * W + px) := by
    have hWne : ((W : ℚ)) ≠ 0 := by positivity
    have hHne : ((H : ℚ)) ≠ 0 := by positivity
    have hxc : ((px : ℚ) - 0) * ((W : ℚ) / (W : ℚ)) = (px : ℚ) := by
      rw [div_self hWne]
      ring
    have hyc : ((py : ℚ) - 0) * ((H : ℚ) / (H : ℚ)) = (py : ℚ) := by
      rw [div_self hHne]
      ring
    simp only [componentAtClientXY, hxc, hyc, Int.floor_natCast]
    rw [if_neg (by
      push_neg
      refine ⟨by positivity, by exact_mod_cast hxW, by positivity, by exact_mod_cast hyH⟩)]
    rw [Int.toNat_natCast, Int.toNat_natCast]
  have hlen : s.length ≠ 0 := by
    intro hzero
    rw [List.length_eq_zero] at hzero
    subst hzero
    exact absurd hmem' (List.not_mem_nil _)
  refine ⟨k, s, hhit, hk, hs, hmem', ?_⟩
  intro p hp
  constructor
  · intro hcmem
    have h0 := redraw_bytes greyData colorData compIdAt W H
      (buildItemMappings compIdAt W H items).itemKeyToComps k s hs hlen p hp 0 (by omega)
    have h1 := redraw_bytes greyData colorData compIdAt W H
      (buildItemMappings compIdAt W H items).itemKeyToComps k s hs hlen p hp 1 (by omega)
    have h2 := redraw_bytes greyData colorData compIdAt W H
      (buildItemMappings compIdAt W H items).itemKeyToComps k s hs hlen p hp 2 (by omega)
    have h3 := redraw_bytes greyData colorData compIdAt W H
      (buildItemMappings compIdAt W H items).itemKeyToComps k s hs hlen p hp 3 (by omega)
    rw [hcmem] at h0 h1 h2 h3
    simp only [if_true] at h0 h1 h2 h3
    refine ⟨?_, ?_, ?_, ?_⟩
    · simpa using h0
    · simpa using h1
    · simpa using h2
    · simpa using h3
  · intro hcmem c hc
    have h := redraw_bytes greyData colorData compIdAt W H
      (buildItemMappings compIdAt W H items).itemKeyToComps k s hs hlen p hp c hc
    rw [hcmem] at h
    simpa using h

/-- Concrete instance of `roundTrip_spec`: a one-item catalog on a 1-by-1
image whose single anchor hits the sole labelled pixel. -/
theorem roundTrip_spec_witness :
    ((0 : ℚ) ≤ 0) ∧ ((0 : Nat) < 1) ∧
    ((fun _ => (1 : Nat)) (0 * 1 + 0) ≠ 0) ∧
    (∃ key comps,
      componentAtClientXY (fun _ => 1) 1 1 ⟨0, 0, ((1 : Nat) : ℚ), ((1 : Nat) : ℚ)⟩
          ((0 : Nat) : ℚ) ((0 : Nat) : ℚ)
        = (fun _ => (1 : Nat)) (0 * 1 + 0) ∧
      mapGet (buildItemMappings (fun _ => 1) 1 1
          [⟨"a", "A", "m", [((0 : ℚ), (0 : ℚ))]⟩]).compToItemKey
        ((fun _ => (1 : Nat)) (0 * 1 + 0)) = some key ∧
      mapGet (buildItemMappings (fun _ => 1) 1 1
          [⟨"a", "A", "m", [((0 : ℚ), (0 : ℚ))]⟩]).itemKeyToComps key
        = some comps ∧
      (fun _ => (1 : Nat)) (0 * 1 + 0) ∈ comps ∧
      (∀ p, p < 1 * 1 →
        (comps.contains ((fun _ => (1 : Nat)) p) = true →
          redraw (fun _ => 5) (fun _ => 6) 1 1 (fun _ => 1)
              (buildItemMappings (fun _ => 1) 1 1
                [⟨"a", "A", "m", [((0 : ℚ), (0 : ℚ))]⟩]).itemKeyToComps (some key)
              (p * 4) = (fun _ => (6 : Nat)) (p * 4) ∧
          redraw (fun _ => 5) (fun _ => 6) 1 1 (fun _ => 1)
              (buildItemMappings (fun _ => 1) 1 1
                [⟨"a", "A", "m", [((0 : ℚ), (0 : ℚ))]⟩]).itemKeyToComps (some key)
              (p * 4 + 1) = (fun _ => (6 : Nat)) (p * 4 + 1) ∧
          redraw (fun _ => 5) (fun _ => 6) 1 1 (fun _ => 1)
              (buildItemMappings (fun _ => 1) 1 1
                [⟨"a", "A", "m", [((0 : ℚ), (0 : ℚ))]⟩]).itemKeyToComps (some key)
              (p * 4 + 2) = (fun _ => (6 : Nat)) (p * 4 + 2) ∧
          redraw (fun _ => 5) (fun _ => 6) 1 1 (fun _ => 1)
              (buildItemMappings (fun _ => 1) 1 1
                [⟨"a", "A", "m", [((0 : ℚ), (0 : ℚ))]⟩]).itemKeyToComps (some key)
              (p * 4 + 3) = 255) ∧
        (comps.contains ((fun _ => (1 : Nat)) p) = false →
          ∀ c, c < 4 →
            redraw (fun _ => 5) (fun _ => 6) 1 1 (fun _ => 1)
              (buildItemMappings (fun _ => 1) 1 1
                [⟨"a", "A", "m", [((0 : ℚ), (0 : ℚ))]⟩]).itemKeyToComps (some key)
              (p * 4 + c) = (fun _ => (5 : Nat)) (p * 4 + c)))) :=
  ⟨le_refl 0, Nat.zero_lt_one, by decide,
    roundTrip_spec (fun _ => 1) (fun _ => 5) (fun _ => 6) 1 1
      [⟨"a", "A", "m", [((0 : ℚ), (0 : ℚ))]⟩] (by simp)
      ⟨"a", "A", "m", [((0 : ℚ), (0 : ℚ))]⟩ (by simp) ((0 : ℚ), (0 : ℚ)) (by simp)
      (le_refl 0) (le_refl 0) 0 0
      (by norm_num) (by norm_num) Nat.zero_lt_one Nat.zero_lt_one (by decide)⟩

end GearHover
